import Mathlib

/-!
Verification of the group-selection decision layer of the `group_testing`
repository.  The Python sources under `group_testing/group_selectors/` and
`group_testing/samplers/` are shallowly embedded below: boolean numpy/jax
arrays become `List Bool`, float arrays become `List ℚ` (all arithmetic the
claims depend on is exact in the sources, so rationals are a faithful carrier),
and functions that can raise return `Except String _`.  External randomness
(`jax.random` keys) is modelled by explicit parameters (a projection vector for
`collapse_particles`, a shuffle function for group permutation).
-/

namespace GroupTesting

/-- A boolean vector over patients: one row of a group batch, or one particle. -/
abbrev BVec := List Bool

/-- The belief/session state consumed by every selector (external to the core;
fields follow the interface listed in the design: `num_patients`,
`max_group_size`, `extra_tests_needed`, priors, particle population, history,
clearing bookkeeping, terminal flag).  `queued` records the batches pushed via
`add_groups_to_test` together with their `results_need_clearing` flag. -/
structure State where
  num_patients : ℕ
  max_group_size : ℕ
  extra_tests_needed : ℕ
  prior_infection_rate : List ℚ
  prior_sensitivity : List ℚ
  prior_specificity : List ℚ
  particle_weights : List ℚ
  particles : List BVec
  past_groups : List BVec
  past_test_results : List Bool
  to_clear_positives : List ℕ
  all_cleared : Bool
  queued : List (List BVec × Bool)
  deriving Repr, DecidableEq

/-- `state.add_groups_to_test(batch, results_need_clearing)`: pushes one batch
of groups onto the state's pending-test queue. -/
def add_groups_to_test (st : State) (batch : List BVec) (needClearing : Bool) :
    State :=
  { st with queued := st.queued ++ [(batch, needClearing)] }

/-- `state.update_to_clear_positives()`.  Modelled from the spec: the function
lives outside the embedded sources (it is external bookkeeping of the session
state); the spec gives it no semantics beyond advancing the pending-clearance
bookkeeping, so it is modelled as the identity on all modelled fields. -/
def update_to_clear_positives (st : State) : State := st

/-! ### TwoDDorfmanPostSelector (split.py) -/

/-- Entry `p` of `np.sum(past_groups[past_test_results, :], axis=0)`: the
number of past groups whose test returned positive and that contain patient
`p`. -/
def returned_positive (st : State) (p : ℕ) : ℕ :=
  ((st.past_groups.zip st.past_test_results).filter (fun gr => gr.2)).countP
    (fun gr => gr.1.getD p false)

/-- `jax.nn.one_hot(p, n).astype(bool)`: the indicator row of patient `p`. -/
def one_hot (n p : ℕ) : BVec := (List.range n).map (fun j => decide (j = p))

/-- `TwoDDorfmanPostSelector.__call__`: on a state whose past-group count is
exactly `8 + 12`, computes which patients to retest individually from the
positive rows/columns; otherwise sets `all_cleared`. -/
def twoDDorfmanPostSelector (st : State) : State :=
  let num_rows := 8
  let num_cols := 12
  if st.past_groups.length = num_rows + num_cols then
    let total_positive_first_block :=
      (st.past_test_results.take num_rows).count true
    let total_positive_second_block :=
      ((st.past_test_results.drop num_rows).take num_cols).count true
    let reflex_to_test :=
      if Bool.xor (decide (0 < total_positive_first_block))
          (decide (0 < total_positive_second_block)) then
        (List.range st.num_patients).filter
          (fun p => decide (0 < returned_positive st p))
      else
        (List.range st.num_patients).filter
          (fun p => decide (1 < returned_positive st p))
    let new_groups := reflex_to_test.map (one_hot st.num_patients)
    add_groups_to_test st new_groups false
  else
    { st with all_cleared := true }

/-- Concrete state for exercising the two-stage selector: 20 past groups, all
of whose tests returned negative. -/
def c1State : State :=
  { num_patients := 4
    max_group_size := 4
    extra_tests_needed := 0
    prior_infection_rate := [1/10]
    prior_sensitivity := [1]
    prior_specificity := [1]
    particle_weights := [1]
    particles := [[false, false, false, false]]
    past_groups := List.replicate 20 [false, false, false, false]
    past_test_results := List.replicate 20 false
    to_clear_positives := []
    all_cleared := false
    queued := [] }

theorem returned_positive_of_all_negative (st : State)
    (hneg : ∀ r ∈ st.past_test_results, r = false) (p : ℕ) :
    returned_positive st p = 0 := by
  unfold returned_positive
  have hnil : (st.past_groups.zip st.past_test_results).filter
      (fun gr => gr.2) = [] := by
    apply List.filter_eq_nil_iff.mpr
    intro gr hgr
    have := (List.of_mem_zip hgr).2
    simp [hneg gr.2 this]
  rw [hnil]
  rfl

/-- C1 (counterexample): on a state with exactly 20 past groups and
all-negative results, `TwoDDorfmanPostSelector` does not set `all_cleared`; it
pushes an empty batch instead. -/
theorem c1_counterexample :
    (twoDDorfmanPostSelector c1State).all_cleared = false ∧
      (twoDDorfmanPostSelector c1State).queued = [([], false)] := by
  constructor <;> rfl

/-- C1 (amended): for every state whose `past_groups` contains exactly 20
groups and whose `past_test_results` are all negative, a call to
`TwoDDorfmanPostSelector` queues no new groups (it pushes an empty batch) and
leaves `all_cleared` unchanged; `all_cleared` is set only on calls where the
past-group count differs from 20. -/
theorem c1_twoDDorfman_all_negative (st : State)
    (hlen : st.past_groups.length = 20)
    (hneg : ∀ r ∈ st.past_test_results, r = false) :
    twoDDorfmanPostSelector st = add_groups_to_test st [] false ∧
      (twoDDorfmanPostSelector st).all_cleared = st.all_cleared := by
  have hfirst : (st.past_test_results.take 8).count true = 0 := by
    apply List.count_eq_zero.mpr
    intro h
    have := hneg true (List.mem_of_mem_take h)
    simp at this
  have hsecond : ((st.past_test_results.drop 8).take 12).count true = 0 := by
    apply List.count_eq_zero.mpr
    intro h
    have := hneg true (List.mem_of_mem_drop (List.mem_of_mem_take h))
    simp at this
  have hrp : ∀ p, returned_positive st p = 0 :=
    returned_positive_of_all_negative st hneg
  have hmain : twoDDorfmanPostSelector st = add_groups_to_test st [] false := by
    unfold twoDDorfmanPostSelector
    rw [if_pos (by omega)]
    rw [hfirst, hsecond]
    have hfilter : (List.range st.num_patients).filter
        (fun p => decide (1 < returned_positive st p)) = [] := by
      apply List.filter_eq_nil_iff.mpr
      intro p _
      simp [hrp p]
    simp only [hfilter]
    rfl
  exact ⟨hmain, by rw [hmain]; rfl⟩

/-- C1 (witness): the amended statement evaluated on the concrete 20-group
all-negative state. -/
theorem c1_witness :
    twoDDorfmanPostSelector c1State = add_groups_to_test c1State [] false ∧
      (twoDDorfmanPostSelector c1State).all_cleared = c1State.all_cleared := by
  exact c1_twoDDorfman_all_negative c1State (by rfl) (by decide)

/-! ### DorfmanDecoder (dorfman_decoder.py) -/

/-- Output of `DorfmanDecoder.produce_sample`: the refreshed
`particle_weights` and the single fractional particle (the marginal). -/
structure DecoderOut where
  particle_weights : List ℚ
  particles : List (List ℚ)
  deriving Repr, DecidableEq

/-- The rows of `past_groups` selected by the boolean mask
`ind_tests = (np.sum(groups, axis=1) == 1) * tests`: past groups of size
exactly one whose test returned positive. -/
def positive_singleton_groups (st : State) : List BVec :=
  (st.past_groups.zip st.past_test_results).filterMap
    (fun gr => if gr.1.count true = 1 ∧ gr.2 then some gr.1 else none)

/-- `DorfmanDecoder.produce_sample`: sets `particle_weights` to `[1]` and the
single particle to `zeros` plus (when at least one positive singleton exists)
the column sums of the selected rows. -/
def dorfman_produce_sample (st : State) : DecoderOut :=
  let ind := positive_singleton_groups st
  let marginal : List ℚ :=
    if ind.length = 0 then
      List.replicate st.num_patients 0
    else
      (List.range st.num_patients).map
        (fun p => ((ind.countP (fun g => g.getD p false) : ℕ) : ℚ))
  { particle_weights := [1], particles := [marginal] }

/-- Concrete past-test history in which patient 0 appears in two positive
groups of size one. -/
def c4State : State :=
  { c1State with
    num_patients := 1
    past_groups := [[true], [true]]
    past_test_results := [true, true] }

/-- C4 (counterexample): with past groups `[[1]], [[1]]` (both of size one)
and results `[True, True]`, the produced marginal is `[2]`, not the
boolean-as-float value `1` the claim requires at patient 0. -/
theorem c4_counterexample :
    (dorfman_produce_sample c4State).particles = [[2]] ∧ (2 : ℚ) ≠ 1 := by
  constructor
  · rfl
  · norm_num

theorem dorfman_decoder_counts (st : State) :
    (dorfman_produce_sample st).particle_weights = [1] ∧
      (dorfman_produce_sample st).particles =
        [(List.range st.num_patients).map
          (fun p => (((positive_singleton_groups st).countP
            (fun g => g.getD p false) : ℕ) : ℚ))] := by
  refine ⟨rfl, ?_⟩
  unfold dorfman_produce_sample
  by_cases h : (positive_singleton_groups st).length = 0
  · have hnil : positive_singleton_groups st = [] := List.length_eq_zero.mp h
    simp only [h, if_pos, hnil]
    simp [List.map_const']
  · simp only [h, if_neg]
    simp

/-- Number of indices `i` into the past-test history at which the `i`-th past
group has size exactly one, its test returned positive, and it contains
patient `p`.  Stated over raw history indices, independently of the decoder's
row-mask computation. -/
def singleton_positive_count (st : State) (p : ℕ) : ℕ :=
  ((List.range st.past_groups.length).filter
    (fun i => decide ((st.past_groups.getD i []).count true = 1) &&
      st.past_test_results.getD i false &&
      (st.past_groups.getD i []).getD p false)).length

theorem psg_countP_eq_index_count (gs : List BVec) (ts : List Bool) (p : ℕ)
    (hlen : ts.length = gs.length) :
    ((gs.zip ts).filterMap
        (fun gr => if gr.1.count true = 1 ∧ gr.2 then some gr.1 else none)).countP
        (fun g => g.getD p false) =
      ((List.range gs.length).filter
        (fun i => decide ((gs.getD i []).count true = 1) &&
          ts.getD i false && (gs.getD i []).getD p false)).length := by
  induction gs generalizing ts with
  | nil => simp
  | cons g gs ih =>
    match ts with
    | [] => simp at hlen
    | t :: ts =>
      have hlen' : ts.length = gs.length := by
        simpa using hlen
      have hih := ih ts hlen'
      have hmapfilter :
          ((List.range gs.length).map Nat.succ).filter
            (fun i => decide (((g :: gs).getD i []).count true = 1) &&
              (t :: ts).getD i false && ((g :: gs).getD i []).getD p false) =
          ((List.range gs.length).filter
            (fun i => decide ((gs.getD i []).count true = 1) &&
              ts.getD i false && (gs.getD i []).getD p false)).map Nat.succ := by
        rw [List.filter_map]
        rfl
      rw [show List.range (g :: gs).length =
          0 :: (List.range gs.length).map Nat.succ from by
        simpa using List.range_succ_eq_map gs.length]
      rw [List.filter_cons, hmapfilter]
      simp only [List.zip_cons_cons, List.filterMap_cons, List.getD_cons_zero]
      cases t with
      | false =>
        rw [if_neg (by simp)]
        simp only [Bool.and_false, Bool.false_and]
        rw [if_neg (by simp)]
        simpa using hih
      | true =>
        by_cases hc : g.count true = 1
        · rw [if_pos (by simp [hc])]
          simp only [hc, decide_eq_true_eq, Bool.and_true]
          by_cases hp : g.getD p false = true
          · rw [if_pos (by simpa [List.getD] using hp)]
            simp only [List.countP_cons, hp]
            simp only [List.length_cons, List.length_map]
            rw [hih]
            simp
          · have hp' : g.getD p false = false := by
              simpa using hp
            rw [if_neg (by simpa [List.getD] using hp')]
            simp only [List.countP_cons, hp']
            simp only [List.length_map]
            rw [hih]
            simp
        · rw [if_neg (by simp [hc])]
          rw [if_neg (by simp [hc])]
          simpa using hih

/-- C4 (amended): for every past-test history (with as many results as
groups), `produce_sample` sets `particle_weights` to the singleton `[1]` and
produces a single-particle marginal whose value at patient `p` is the NUMBER
of past groups of size exactly one that tested positive and contain `p`
(hence `1` exactly when `p` appears in exactly one such group, and `0` for
every patient appearing in none). -/
theorem c4_dorfman_decoder_marginal (st : State)
    (hlen : st.past_test_results.length = st.past_groups.length) :
    (dorfman_produce_sample st).particle_weights = [1] ∧
      (dorfman_produce_sample st).particles =
        [(List.range st.num_patients).map
          (fun p => ((singleton_positive_count st p : ℕ) : ℚ))] := by
  obtain ⟨hw, hp⟩ := dorfman_decoder_counts st
  refine ⟨hw, ?_⟩
  rw [hp]
  congr 1
  apply List.map_congr_left
  intro p _
  congr 1
  exact psg_countP_eq_index_count st.past_groups st.past_test_results p hlen

/-- C4 (witness): the amended statement evaluated on the history of the spec's
decoder example, `past_groups = [[1,0,0],[0,1,1]]`, `results = [True, True]`. -/
theorem c4_witness :
    (dorfman_produce_sample
        { c1State with
          num_patients := 3
          past_groups := [[true, false, false], [false, true, true]]
          past_test_results := [true, true] }).particle_weights = [1] ∧
      (dorfman_produce_sample
        { c1State with
          num_patients := 3
          past_groups := [[true, false, false], [false, true, true]]
          past_test_results := [true, true] }).particles =
        [(List.range 3).map
          (fun p => ((singleton_positive_count
            { c1State with
              num_patients := 3
              past_groups := [[true, false, false], [false, true, true]]
              past_test_results := [true, true] } p : ℕ) : ℚ))] :=
  c4_dorfman_decoder_marginal _ (by rfl)

/-! ### numpy helpers used by the split selectors -/

/-- Python's `-(-a // b)`: ceiling division (for `1 ≤ b`). -/
def ceilDiv (a b : ℕ) : ℕ := (a + b - 1) / b

/-- Part sizes of `numpy.array_split` on `n` elements into `k` parts: the
first `n % k` parts get `n / k + 1` elements, the rest `n / k`. -/
def arraySplitSizes (n k : ℕ) : List ℕ :=
  (List.range k).map (fun i => if i < n % k then n / k + 1 else n / k)

/-- Cuts a list into consecutive chunks with the given sizes. -/
def splitBySizes : List ℕ → List α → List (List α)
  | [], _ => []
  | s :: rest, l => l.take s :: splitBySizes rest (l.drop s)

/-- `numpy.array_split(l, k)`. -/
def arraySplit (l : List α) (k : ℕ) : List (List α) :=
  splitBySizes (arraySplitSizes l.length k) l

/-- Boolean indicator row over `n` patients of an index set
(`new_groups[i, indices[i]] = True`). -/
def indicator_row (n : ℕ) (idxs : List ℕ) : BVec :=
  (List.range n).map (fun j => decide (j ∈ idxs))

/-- Bounded search for the least `n` (starting at the given cursor) with
`den ≤ num * n ^ 2`; returns the cursor reached when the fuel runs out. -/
def ceilInvSqrtAux (num den : ℤ) : ℕ → ℕ → ℕ
  | 0, n => n
  | fuel + 1, n =>
    if den ≤ num * (n : ℤ) ^ 2 then n else ceilInvSqrtAux num den fuel (n + 1)

/-- `np.ceil(1 / np.sqrt(q))` for a rational `q > 0`: the least `n` with
`q.den ≤ q.num * n ^ 2` (squaring `1/√q ≤ n`).  The least such `n` is at most
`q.den` (because `q.num ≥ 1` gives `num · den² ≥ den`), so a search bounded by
`q.den` steps finds it. -/
def ceilInvSqrt (q : ℚ) : ℕ :=
  ceilInvSqrtAux q.num (q.den : ℤ) q.den 0

/-! ### SplitSelector (split.py) -/

/-- `SplitSelector.get_groups`: either derives the Dorfman-optimal split from
the scalar prior infection rate (rejecting a vector-valued rate), or uses the
explicit `split_factor`, raised to the minimum number of splits keeping every
group within `max_group_size`; then partitions `arange(num_patients)` with
`array_split` and emits one indicator row per part. -/
def splitSelectorGetGroups (split_factor : Option ℕ) (st : State) :
    Except String (List BVec) :=
  match split_factor with
  | none =>
    if 1 < st.prior_infection_rate.length then
      .error ("Dorfman Splitting cannot be used with individual infection " ++
        "rates. Consider using Informative Dorfman instead.")
    else
      let rate := st.prior_infection_rate.getD 0 0
      let group_size := 1 + ceilInvSqrt rate
      let group_size := min group_size st.max_group_size
      let sf := ceilDiv st.num_patients group_size
      .ok ((arraySplit (List.range st.num_patients) sf).map
        (indicator_row st.num_patients))
  | some f =>
      let min_splits := ceilDiv st.num_patients st.max_group_size
      let sf := max f min_splits
      .ok ((arraySplit (List.range st.num_patients) sf).map
        (indicator_row st.num_patients))

/-- `SplitSelector.__call__`: queue the computed groups with
`results_need_clearing=True`. -/
def splitSelectorCall (split_factor : Option ℕ) (st : State) :
    Except String State :=
  (splitSelectorGetGroups split_factor st).map
    (fun gs => add_groups_to_test st gs true)

/-! ### SplitPositive (split.py) -/

/-- One iteration body of `SplitPositive._split_groups`: member indices of a
group split into `use_split_factor` contiguous parts, one indicator row per
part (`use_split_factor` is the member count when `split_factor` is unset). -/
def splitOneGroup (split_factor : Option ℕ) (n_patients : ℕ) (g : BVec) :
    List BVec :=
  let indices := (List.range n_patients).filter (fun j => g.getD j false)
  let use_split_factor := match split_factor with
    | none => indices.length
    | some f => f
  (arraySplit indices use_split_factor).map (indicator_row n_patients)

/-- The accumulation loop of `SplitPositive._split_groups`.  Mirrors the
Python control flow faithfully: a row with at most one member re-appends the
most recent `newg` (Python keeps the stale loop variable), and raises
`NameError` when no `newg` was ever assigned. -/
def splitGroupsLoop (split_factor : Option ℕ) (n_patients : ℕ) :
    List BVec → Option (List BVec) → List BVec → Except String (List BVec)
  | [], _, acc => .ok acc
  | g :: rest, lastNew, acc =>
    if 1 < g.count true then
      let newg := splitOneGroup split_factor n_patients g
      splitGroupsLoop split_factor n_patients rest (some newg) (acc ++ newg)
    else
      match lastNew with
      | none => .error "NameError: name newg is not defined"
      | some newg => splitGroupsLoop split_factor n_patients rest lastNew
          (acc ++ newg)

/-- `SplitPositive._split_groups`. -/
def splitPositiveSplitGroups (split_factor : Option ℕ) (n_patients : ℕ)
    (groups : List BVec) : Except String (List BVec) :=
  splitGroupsLoop split_factor n_patients groups none []

/-- `SplitPositive.get_groups`: selects the past groups flagged positive and
pending clearance, keeps those with more than one member, and splits them;
returns `none` (Python `None`) when there is nothing to split. -/
def splitPositiveGetGroups (split_factor : Option ℕ) (st : State) :
    Except String (Option (List BVec)) :=
  if 0 < st.past_groups.length ∧ 0 < st.to_clear_positives.length then
    let to_split := st.to_clear_positives.map (fun i => st.past_groups.getD i [])
    let to_split := to_split.filter (fun g => decide (1 < g.count true))
    if 0 < to_split.length then
      (splitPositiveSplitGroups split_factor st.num_patients to_split).map some
    else
      .ok none
  else
    .ok none

/-- `SplitPositive.__call__`: queue the sub-groups and advance the clearance
bookkeeping, or mark the state fully resolved when nothing is left to split. -/
def splitPositiveCall (split_factor : Option ℕ) (st : State) :
    Except String State :=
  (splitPositiveGetGroups split_factor st).map (fun res =>
    match res with
    | some new_groups =>
        update_to_clear_positives (add_groups_to_test st new_groups true)
    | none => { st with all_cleared := true })

/-! ### MaxMutualInformation constructor (mutual_information.py) -/

/-- `MaxMutualInformation.__init__`: rejects
`forward_iterations <= backward_iterations` with a `ValueError`. -/
def maxMutualInformationInit (forward_iterations backward_iterations : ℕ) :
    Except String (ℕ × ℕ) :=
  if forward_iterations ≤ backward_iterations then
    .error "Forward should be greater than backward."
  else
    .ok (forward_iterations, backward_iterations)

/-! ### Properties of `array_split` -/

theorem sum_range_if (k q r : ℕ) (h : r ≤ k) :
    ((List.range k).map (fun i => if i < r then q + 1 else q)).sum =
      k * q + r := by
  induction k with
  | zero =>
    have : r = 0 := by omega
    subst this
    simp
  | succ k ih =>
    rw [List.range_succ, List.map_append, List.sum_append]
    rcases Nat.lt_or_ge r (k + 1) with hr | hr
    · have hrk : r ≤ k := by omega
      rw [ih hrk]
      have hnk : ¬ k < r := by omega
      simp only [hnk, if_false, List.map_cons, List.map_nil, List.sum_cons,
        List.sum_nil]
      ring
    · have hr' : r = k + 1 := by omega
      subst hr'
      have hmap : (List.range k).map (fun i => if i < k + 1 then q + 1 else q)
          = (List.range k).map (fun _ => q + 1) := by
        apply List.map_congr_left
        intro i hi
        have : i < k + 1 := by
          have := List.mem_range.mp hi
          omega
        simp [this]
      rw [hmap, List.map_const']
      have hk : k < k + 1 := by omega
      simp only [hk, if_true, List.length_range, List.sum_replicate,
        smul_eq_mul, List.map_cons, List.map_nil, List.sum_cons, List.sum_nil]
      ring

theorem arraySplitSizes_sum (n k : ℕ) (hk : 1 ≤ k) :
    (arraySplitSizes n k).sum = n := by
  unfold arraySplitSizes
  rw [sum_range_if k (n / k) (n % k) (Nat.mod_lt n hk).le]
  exact Nat.div_add_mod n k

theorem arraySplitSizes_pos (n k : ℕ) (hk : 1 ≤ k) (hkn : k ≤ n) :
    ∀ s ∈ arraySplitSizes n k, 1 ≤ s := by
  intro s hs
  obtain ⟨i, _, hi⟩ := List.mem_map.mp hs
  have hdiv : 1 ≤ n / k := (Nat.one_le_div_iff hk).mpr hkn
  rcases Nat.lt_or_ge i (n % k) with h | h
  · rw [if_pos h] at hi
    omega
  · rw [if_neg (by omega)] at hi
    omega

theorem splitBySizes_map_length (sizes : List ℕ) (l : List α)
    (h : sizes.sum ≤ l.length) :
    (splitBySizes sizes l).map List.length = sizes := by
  induction sizes generalizing l with
  | nil => rfl
  | cons s rest ih =>
    have hs : s + rest.sum ≤ l.length := by
      simpa [List.sum_cons] using h
    simp only [splitBySizes, List.map_cons, List.length_take]
    rw [show s ⊓ l.length = s from by omega]
    rw [ih (l.drop s) (by rw [List.length_drop]; omega)]

theorem splitBySizes_mem_subset (sizes : List ℕ) (l : List α)
    (part : List α) (hp : part ∈ splitBySizes sizes l) :
    ∀ x ∈ part, x ∈ l := by
  induction sizes generalizing l with
  | nil => simp [splitBySizes] at hp
  | cons s rest ih =>
    simp only [splitBySizes, List.mem_cons] at hp
    rcases hp with hp | hp
    · subst hp
      intro x hx
      exact List.mem_of_mem_take hx
    · intro x hx
      exact List.mem_of_mem_drop (ih (l.drop s) hp x hx)

theorem arraySplit_mem_ne_nil (l : List α) (k : ℕ) (hk : 1 ≤ k)
    (hkn : k ≤ l.length) : ∀ part ∈ arraySplit l k, part ≠ [] := by
  intro part hpart hnil
  have hsum : (arraySplitSizes l.length k).sum = l.length :=
    arraySplitSizes_sum _ _ hk
  have hlen := splitBySizes_map_length (arraySplitSizes l.length k) l hsum.le
  have hmem : part.length ∈
      (splitBySizes (arraySplitSizes l.length k) l).map List.length :=
    List.mem_map_of_mem _ hpart
  rw [hlen] at hmem
  have hpos := arraySplitSizes_pos l.length k hk hkn part.length hmem
  rw [hnil] at hpos
  simp at hpos

theorem arraySplit_mem_subset (l : List α) (k : ℕ) (part : List α)
    (hp : part ∈ arraySplit l k) : ∀ x ∈ part, x ∈ l :=
  splitBySizes_mem_subset _ l part hp

theorem indicator_row_count_pos (n : ℕ) (idxs : List ℕ) (hne : idxs ≠ [])
    (hlt : ∀ x ∈ idxs, x < n) : 0 < (indicator_row n idxs).count true := by
  match idxs, hne with
  | x :: rest, _ =>
    have hxn : x < n := hlt x (by simp)
    have hmem : true ∈ indicator_row n (x :: rest) := by
      unfold indicator_row
      apply List.mem_map.mpr
      exact ⟨x, List.mem_range.mpr hxn, by simp⟩
    exact List.count_pos_iff.mpr hmem

theorem filter_range_getD_length (g : List Bool) :
    ((List.range g.length).filter (fun j => g.getD j false)).length =
      g.count true := by
  induction g with
  | nil => rfl
  | cons b rest ih =>
    rw [show List.range (b :: rest).length =
        0 :: (List.range rest.length).map Nat.succ from by
      simpa using List.range_succ_eq_map rest.length]
    rw [List.filter_cons]
    have hmap : ((List.range rest.length).map Nat.succ).filter
        (fun j => (b :: rest).getD j false) =
        ((List.range rest.length).filter
          (fun j => rest.getD j false)).map Nat.succ := by
      rw [List.filter_map]
      rfl
    rw [hmap]
    cases b
    · rw [if_neg (by simp [List.getD])]
      rw [List.length_map, ih]
      simp [List.count_cons]
    · rw [if_pos (by simp [List.getD])]
      rw [List.length_cons, List.length_map, ih]
      simp [List.count_cons]

/-! ### C2: committed groups have at least one patient -/

/-- Concrete state with 3 patients for the split-factor counterexample. -/
def c2State : State :=
  { c1State with num_patients := 3, max_group_size := 3 }

/-- C2 (counterexample): `SplitSelector` with explicit `split_factor = 5` on a
3-patient state commits a batch whose fourth and fifth rows are all-`False`
(`array_split` produces empty parts when asked for more parts than
elements). -/
theorem c2_counterexample :
    splitSelectorCall (some 5) c2State = .ok (add_groups_to_test c2State
      [[true, false, false], [false, true, false], [false, false, true],
        [false, false, false], [false, false, false]] true) ∧
      ([false, false, false] : List Bool).count true = 0 := by
  constructor <;> rfl

theorem splitGroupsLoop_flatMap (split_factor : Option ℕ) (n : ℕ)
    (groups : List BVec) (last : Option (List BVec)) (acc : List BVec)
    (h : ∀ g ∈ groups, 1 < g.count true) :
    splitGroupsLoop split_factor n groups last acc =
      .ok (acc ++ groups.flatMap (splitOneGroup split_factor n)) := by
  induction groups generalizing last acc with
  | nil => simp [splitGroupsLoop]
  | cons g rest ih =>
    have hg : 1 < g.count true := h g (by simp)
    simp only [splitGroupsLoop, if_pos hg]
    rw [ih _ _ (fun g hgm => h g (by simp [hgm]))]
    simp [List.flatMap_cons]

theorem splitPositiveGetGroups_ok (split_factor : Option ℕ) (st : State)
    (gs : List BVec)
    (h : splitPositiveGetGroups split_factor st = .ok (some gs)) :
    gs = ((st.to_clear_positives.map
        (fun i => st.past_groups.getD i [])).filter
          (fun g => decide (1 < g.count true))).flatMap
      (splitOneGroup split_factor st.num_patients) := by
  unfold splitPositiveGetGroups at h
  by_cases h1 : 0 < st.past_groups.length ∧ 0 < st.to_clear_positives.length
  swap
  · rw [if_neg h1] at h
    simp at h
  rw [if_pos h1] at h
  by_cases h2 : 0 < ((st.to_clear_positives.map
      (fun i => st.past_groups.getD i [])).filter
        (fun g => decide (1 < g.count true))).length
  swap
  · rw [if_neg h2] at h
    simp at h
  rw [if_pos h2] at h
  have hall : ∀ g ∈ (st.to_clear_positives.map
      (fun i => st.past_groups.getD i [])).filter
        (fun g => decide (1 < g.count true)), 1 < g.count true := by
    intro g hg
    exact of_decide_eq_true (List.mem_filter.mp hg).2
  unfold splitPositiveSplitGroups at h
  rw [splitGroupsLoop_flatMap _ _ _ _ _ hall] at h
  simp only [Except.map] at h
  have h' := Option.some.inj (Except.ok.inj h)
  simpa using h'.symm

/-- C2 (amended): every group committed by `SplitSelector` (explicit
`split_factor`) or `SplitPositive` (explicit `split_factor`) has at least one
patient, PROVIDED the split factor does not exceed the number of indices
being split: `split_factor ≤ num_patients` for `SplitSelector`, and
`split_factor` at most the member count of every positive pending group being
split for `SplitPositive`.  (When the factor exceeds that count,
`numpy.array_split` emits empty parts and all-`False` rows are committed, as
the counterexample shows.) -/
theorem c2_committed_groups_nonempty :
    (∀ (st : State) (f : ℕ) (gs : List BVec),
      1 ≤ st.num_patients → 1 ≤ st.max_group_size → f ≤ st.num_patients →
      splitSelectorGetGroups (some f) st = .ok gs →
      ∀ g ∈ gs, 0 < g.count true) ∧
    (∀ (st : State) (f : ℕ) (gs : List BVec),
      1 ≤ f →
      (∀ g ∈ st.past_groups, g.length = st.num_patients) →
      (∀ i ∈ st.to_clear_positives,
        1 < (st.past_groups.getD i []).count true →
        f ≤ (st.past_groups.getD i []).count true) →
      splitPositiveGetGroups (some f) st = .ok (some gs) →
      ∀ g ∈ gs, 0 < g.count true) := by
  constructor
  · intro st f gs hn hmax hf hok g hgmem
    have hok' : (arraySplit (List.range st.num_patients)
        (max f (ceilDiv st.num_patients st.max_group_size))).map
          (indicator_row st.num_patients) = gs := by
      simpa [splitSelectorGetGroups] using hok
    rw [← hok'] at hgmem
    obtain ⟨part, hpart, hgi⟩ := List.mem_map.mp hgmem
    subst hgi
    set sf := max f (ceilDiv st.num_patients st.max_group_size) with hsf
    have hceil_le : ceilDiv st.num_patients st.max_group_size ≤
        st.num_patients := by
      unfold ceilDiv
      obtain ⟨a, ha⟩ := Nat.exists_eq_add_of_le hn
      obtain ⟨b, hb⟩ := Nat.exists_eq_add_of_le hmax
      have hle : st.num_patients + st.max_group_size - 1 ≤
          st.num_patients * st.max_group_size := by
        rw [ha, hb]
        have : (1 + a) * (1 + b) = a * b + (1 + a + b) := by ring
        rw [this]
        omega
      calc (st.num_patients + st.max_group_size - 1) / st.max_group_size
          ≤ st.num_patients * st.max_group_size / st.max_group_size :=
            Nat.div_le_div_right hle
        _ = st.num_patients := Nat.mul_div_cancel _ (by omega)
    have hceil_ge : 1 ≤ ceilDiv st.num_patients st.max_group_size := by
      unfold ceilDiv
      rw [Nat.one_le_div_iff (by omega)]
      omega
    have hsf1 : 1 ≤ sf := le_trans hceil_ge (le_max_right _ _)
    have hsfn : sf ≤ st.num_patients := max_le hf hceil_le
    have hne := arraySplit_mem_ne_nil (List.range st.num_patients) sf hsf1
      (by simpa using hsfn) part hpart
    apply indicator_row_count_pos _ _ hne
    intro x hx
    have := arraySplit_mem_subset (List.range st.num_patients) sf part hpart
      x hx
    exact List.mem_range.mp this
  · intro st f gs hf hlen hcount hok g hgmem
    have hgs := splitPositiveGetGroups_ok (some f) st gs hok
    rw [hgs] at hgmem
    obtain ⟨tg, htg, hgin⟩ := List.mem_flatMap.mp hgmem
    have htg_count : 1 < tg.count true :=
      of_decide_eq_true (List.mem_filter.mp htg).2
    have htg_len : tg.length = st.num_patients := by
      obtain ⟨i, hi, hig⟩ := List.mem_map.mp (List.mem_filter.mp htg).1
      rcases Nat.lt_or_ge i st.past_groups.length with hir | hir
      · have : st.past_groups.getD i [] ∈ st.past_groups := by
          rw [List.getD_eq_getElem?_getD, List.getElem?_eq_getElem hir]
          exact List.getElem_mem hir
        rw [← hig]
        exact hlen _ this
      · rw [List.getD_eq_getElem?_getD, List.getElem?_eq_none hir] at hig
        simp at hig
        rw [hig] at htg_count
        simp at htg_count
    have htg_f : f ≤ tg.count true := by
      obtain ⟨i, hi, hig⟩ := List.mem_map.mp (List.mem_filter.mp htg).1
      have := hcount i hi
      rw [hig] at this
      exact this htg_count
    unfold splitOneGroup at hgin
    obtain ⟨part, hpart, hgi⟩ := List.mem_map.mp hgin
    subst hgi
    set indices := (List.range st.num_patients).filter
      (fun j => tg.getD j false) with hidx
    have hidx_len : indices.length = tg.count true := by
      rw [hidx, ← htg_len]
      exact filter_range_getD_length tg
    have hne := arraySplit_mem_ne_nil indices f hf
      (by rw [hidx_len]; exact htg_f) part hpart
    apply indicator_row_count_pos _ _ hne
    intro x hx
    have hxi := arraySplit_mem_subset indices f part hpart x hx
    rw [hidx] at hxi
    exact List.mem_range.mp (List.mem_filter.mp hxi).1

/-- Concrete state for the `SplitPositive` side of the C2 witness: one past
positive group with three members. -/
def c2PosState : State :=
  { c1State with
    past_groups := [[true, true, true, false]]
    past_test_results := [true]
    to_clear_positives := [0] }

/-- C2 (witness): both amended statements applied at concrete inputs:
`SplitSelector` with `split_factor = 2` on four patients, and `SplitPositive`
with `split_factor = 2` on one positive pending group of three members. -/
theorem c2_witness :
    0 < ([true, true, false, false] : List Bool).count true ∧
      0 < ([true, true, false, false] : List Bool).count true := by
  constructor
  · exact c2_committed_groups_nonempty.1 c1State 2
      [[true, true, false, false], [false, false, true, true]]
      (by decide) (by decide) (by decide) (by rfl)
      [true, true, false, false] (by decide)
  · exact c2_committed_groups_nonempty.2 c2PosState 2
      [[true, true, false, false], [false, false, true, false]]
      (by decide) (by decide) (by decide) (by rfl)
      [true, true, false, false] (by decide)

/-! ### C6: configuration errors -/

/-- C6: configuration errors are raised exactly as claimed:
`MaxMutualInformation`'s constructor errors precisely when
`forward_iterations ≤ backward_iterations`; `SplitSelector.get_groups` with
`split_factor` unset errors precisely on a vector-valued
`prior_infection_rate` (more than one element), succeeding on a scalar
positive rate; and with an explicit `split_factor` it never raises. -/
theorem c6_configuration_errors :
    (∀ fw bw : ℕ,
      (fw ≤ bw ↔ maxMutualInformationInit fw bw =
        .error "Forward should be greater than backward.")) ∧
    (∀ st : State, 1 < st.prior_infection_rate.length →
      splitSelectorGetGroups none st =
        .error ("Dorfman Splitting cannot be used with individual infection " ++
          "rates. Consider using Informative Dorfman instead.")) ∧
    (∀ st : State, st.prior_infection_rate.length ≤ 1 →
      0 < st.prior_infection_rate.getD 0 0 →
      ∃ gs, splitSelectorGetGroups none st = .ok gs) ∧
    (∀ (st : State) (f : ℕ), ∃ gs, splitSelectorGetGroups (some f) st =
      .ok gs) := by
  refine ⟨?_, ?_, ?_, ?_⟩
  · intro fw bw
    constructor
    · intro h
      simp [maxMutualInformationInit, h]
    · intro h
      by_contra hcon
      simp [maxMutualInformationInit, hcon] at h
  · intro st h
    simp [splitSelectorGetGroups, h]
  · intro st h _
    have h' : ¬ 1 < st.prior_infection_rate.length := by omega
    refine ⟨(arraySplit (List.range st.num_patients)
      (ceilDiv st.num_patients
        (min (1 + ceilInvSqrt (st.prior_infection_rate.getD 0 0))
          st.max_group_size))).map (indicator_row st.num_patients), ?_⟩
    simp [splitSelectorGetGroups, h']
  · intro st f
    exact ⟨_, rfl⟩

/-- C6 (witness): the configuration-error dichotomy at concrete inputs:
`forward_iterations = 1, backward_iterations = 1` errors, and the error
message is produced on a two-element infection-rate vector. -/
theorem c6_witness :
    maxMutualInformationInit 1 1 =
      .error "Forward should be greater than backward." ∧
    splitSelectorGetGroups none
        { c1State with prior_infection_rate := [1/10, 1/5] } =
      .error ("Dorfman Splitting cannot be used with individual infection " ++
        "rates. Consider using Informative Dorfman instead.") := by
  constructor
  · exact (c6_configuration_errors.1 1 1).mp (by omega)
  · exact c6_configuration_errors.2.1 _ (by decide)

/-! ### collapse_particles (mutual_information.py)

The `jax.random.normal` projection direction is an explicit parameter
`alpha`; `jax.numpy.argsort` (ascending, stable) is modelled by a stable
insertion sort of the index list; `np.cumsum`, `np.diff` and `np.where` are
modelled directly on lists. -/

/-- `np.sum(particles * alpha, axis=-1)`. -/
def random_projection (alpha : List ℚ) (particles : List BVec) : List ℚ :=
  particles.map
    (fun p => ((p.zip alpha).map (fun xa => if xa.1 then xa.2 else 0)).sum)

/-- `np.argsort(keys)` over `arange(n)`: ascending, stable. -/
def sortedIndices (keys : List ℚ) (n : ℕ) : List ℕ :=
  List.insertionSort (fun i j => keys.getD i 0 ≤ keys.getD j 0) (List.range n)

/-- Running partial sums with an accumulator (`np.cumsum`). -/
def cumsumGo (acc : ℚ) : List ℚ → List ℚ
  | [] => []
  | x :: xs => (acc + x) :: cumsumGo (acc + x) xs

/-- `np.cumsum`. -/
def cumsum (l : List ℚ) : List ℚ := cumsumGo 0 l

/-- `np.diff`: consecutive differences. -/
def diffList (l : List ℚ) : List ℚ :=
  (l.zip l.tail).map (fun ab => ab.2 - ab.1)

/-- `np.where(np.flip(np.diff(np.flip(proj_s))) != 0)` followed by
`np.append(·, n_particles - 1)`: the last index of every run of equal sorted
keys. -/
def singlesIndices (proj_s : List ℚ) (n : ℕ) : List ℕ :=
  ((List.range (n - 1)).filter
    (fun i => decide (((diffList proj_s.reverse).reverse).getD i 0 ≠ 0))) ++
    [n - 1]

/-- `particle_weights[indices]`: the weight vector reordered by the argsort of
the random projection. -/
def collapseWeightsSorted (alpha : List ℚ) (particle_weights : List ℚ)
    (particles : List BVec) : List ℚ :=
  (sortedIndices (random_projection alpha particles) particles.length).map
    (fun i => particle_weights.getD i 0)

/-- `indices_singles` for the sorted projection keys. -/
def collapseSingles (alpha : List ℚ) (particles : List BVec) : List ℕ :=
  singlesIndices
    ((sortedIndices (random_projection alpha particles) particles.length).map
      (fun i => (random_projection alpha particles).getD i 0))
    particles.length

/-- Body of `collapse_particles` past the early-return: sort particles and
weights by the random projection, cut at the run boundaries of the sorted
keys, and take weight-sum differences over each run (`np.diff` of the cumsum
at the cut indices, prepended with the cumsum at the first cut). -/
def collapseMain (alpha : List ℚ) (particle_weights : List ℚ)
    (particles : List BVec) : List ℚ × List BVec :=
  ((cumsum (collapseWeightsSorted alpha particle_weights particles)).getD
      ((collapseSingles alpha particles).getD 0 0) 0 ::
    diffList ((collapseSingles alpha particles).map
      (fun i => (cumsum
        (collapseWeightsSorted alpha particle_weights particles)).getD i 0)),
   (collapseSingles alpha particles).map
     (fun i => ((sortedIndices (random_projection alpha particles)
       particles.length).map (fun j => particles.getD j [])).getD i []))

/-- `collapse_particles`: returns the input unchanged when there are fewer
than two particles. -/
def collapse_particles (alpha : List ℚ) (particle_weights : List ℚ)
    (particles : List BVec) : List ℚ × List BVec :=
  if particles.length < 2 then (particle_weights, particles)
  else collapseMain alpha particle_weights particles

theorem map_getD_range (l : List α) (d : α) :
    (List.range l.length).map (fun i => l.getD i d) = l := by
  induction l with
  | nil => rfl
  | cons x xs ih =>
    rw [show List.range (x :: xs).length =
        0 :: (List.range xs.length).map Nat.succ from by
      simpa using List.range_succ_eq_map xs.length]
    rw [List.map_cons, List.map_map]
    have : ((fun i => (x :: xs).getD i d) ∘ Nat.succ) =
        (fun i => xs.getD i d) := by
      funext i
      rfl
    rw [this, ih]
    rfl

theorem cumsumGo_getD_last (l : List ℚ) (acc : ℚ) (h : l ≠ []) :
    (cumsumGo acc l).getD (l.length - 1) 0 = acc + l.sum := by
  induction l generalizing acc with
  | nil => simp at h
  | cons x xs ih =>
    cases xs with
    | nil => simp [cumsumGo]
    | cons y ys =>
      have hne : y :: ys ≠ [] := by simp
      have hstep : (cumsumGo acc (x :: y :: ys)).getD
          ((x :: y :: ys).length - 1) 0 =
          (cumsumGo (acc + x) (y :: ys)).getD ((y :: ys).length - 1) 0 := rfl
      rw [hstep, ih (acc + x) hne]
      simp [List.sum_cons]
      ring

theorem diff_telescope (a : ℚ) (xs : List ℚ) :
    a + (diffList (a :: xs)).sum = (a :: xs).getD xs.length 0 := by
  induction xs generalizing a with
  | nil => simp [diffList]
  | cons b rest ih =>
    have hd : diffList (a :: b :: rest) = (b - a) :: diffList (b :: rest) := by
      rfl
    rw [hd, List.sum_cons]
    have := ih b
    calc a + (b - a + (diffList (b :: rest)).sum)
        = b + (diffList (b :: rest)).sum := by ring
      _ = (b :: rest).getD rest.length 0 := ih b
      _ = (a :: b :: rest).getD (b :: rest).length 0 := by rfl

theorem getD_map_of_lt (l : List α) (f : α → β) (k : ℕ) (h : k < l.length)
    (d : α) (d' : β) : (l.map f).getD k d' = f (l.getD k d) := by
  rw [List.getD_eq_getElem?_getD, List.getD_eq_getElem?_getD,
    List.getElem?_map, List.getElem?_eq_getElem h]
  simp

theorem singlesIndices_ne_nil (proj_s : List ℚ) (n : ℕ) :
    singlesIndices proj_s n ≠ [] := by
  unfold singlesIndices
  simp

theorem singlesIndices_last (proj_s : List ℚ) (n : ℕ) :
    (singlesIndices proj_s n).getD ((singlesIndices proj_s n).length - 1) 0 =
      n - 1 := by
  unfold singlesIndices
  generalize (List.range (n - 1)).filter
      (fun i => decide (((diffList proj_s.reverse).reverse).getD i 0 ≠ 0)) = fl
  rw [List.length_append, List.length_singleton]
  have hidx : fl.length + 1 - 1 = fl.length := by omega
  rw [hidx, List.getD_eq_getElem?_getD, List.getElem?_append_right (le_refl _)]
  simp

theorem singlesIndices_length_le (proj_s : List ℚ) (n : ℕ) (hn : 1 ≤ n) :
    (singlesIndices proj_s n).length ≤ n := by
  unfold singlesIndices
  rw [List.length_append]
  have := List.length_filter_le
    (fun i => decide (((diffList proj_s.reverse).reverse).getD i 0 ≠ 0))
    (List.range (n - 1))
  simp only [List.length_range] at this
  simp only [List.length_singleton]
  omega

theorem cons_diff_map_sum (C : List ℚ) (I : List ℕ) (hne : I ≠ []) :
    (C.getD (I.getD 0 0) 0 ::
        diffList (I.map (fun i => C.getD i 0))).sum =
      C.getD (I.getD (I.length - 1) 0) 0 := by
  match I, hne with
  | i0 :: rest, _ =>
    rw [List.sum_cons]
    have hmap : (i0 :: rest).map (fun i => C.getD i 0) =
        C.getD i0 0 :: rest.map (fun i => C.getD i 0) := rfl
    rw [hmap]
    have h0 : (i0 :: rest).getD 0 0 = i0 := rfl
    rw [h0]
    rw [diff_telescope (C.getD i0 0) (rest.map (fun i => C.getD i 0))]
    rw [List.length_map]
    have hlt : rest.length < (i0 :: rest).length := by simp
    have := getD_map_of_lt (i0 :: rest) (fun i => C.getD i 0) rest.length hlt
      0 0
    rw [show (i0 :: rest).length - 1 = rest.length from by simp]
    exact this

theorem collapseSingles_ne_nil (alpha : List ℚ) (particles : List BVec) :
    collapseSingles alpha particles ≠ [] := by
  unfold collapseSingles
  exact singlesIndices_ne_nil _ _

theorem collapseSingles_last (alpha : List ℚ) (particles : List BVec) :
    (collapseSingles alpha particles).getD
      ((collapseSingles alpha particles).length - 1) 0 =
      particles.length - 1 := by
  unfold collapseSingles
  exact singlesIndices_last _ _

theorem collapseSingles_length_le (alpha : List ℚ) (particles : List BVec)
    (h : 1 ≤ particles.length) :
    (collapseSingles alpha particles).length ≤ particles.length := by
  unfold collapseSingles
  exact singlesIndices_length_le _ _ h

theorem collapseWeightsSorted_length (alpha particle_weights : List ℚ)
    (particles : List BVec) :
    (collapseWeightsSorted alpha particle_weights particles).length =
      particles.length := by
  unfold collapseWeightsSorted sortedIndices
  rw [List.length_map, (List.perm_insertionSort _ _).length_eq,
    List.length_range]

theorem collapseWeightsSorted_sum (alpha particle_weights : List ℚ)
    (particles : List BVec)
    (hlen : particle_weights.length = particles.length) :
    (collapseWeightsSorted alpha particle_weights particles).sum =
      particle_weights.sum := by
  unfold collapseWeightsSorted sortedIndices
  have hperm : List.Perm
      (List.insertionSort
        (fun i j => (random_projection alpha particles).getD i 0 ≤
          (random_projection alpha particles).getD j 0)
        (List.range particles.length))
      (List.range particles.length) :=
    List.perm_insertionSort _ _
  rw [(hperm.map _).sum_eq, ← hlen, map_getD_range]

/-- C5: `collapse_particles` preserves the total weight exactly, never
increases the particle count, and returns the input unchanged when the
particle count is below two. -/
theorem c5_collapse_particles (alpha particle_weights : List ℚ)
    (particles : List BVec)
    (hlen : particle_weights.length = particles.length) :
    (collapse_particles alpha particle_weights particles).1.sum =
        particle_weights.sum ∧
      (collapse_particles alpha particle_weights particles).2.length ≤
        particles.length ∧
      (particles.length < 2 →
        collapse_particles alpha particle_weights particles =
          (particle_weights, particles)) := by
  unfold collapse_particles
  by_cases h2 : particles.length < 2
  · rw [if_pos h2]
    exact ⟨rfl, le_refl _, fun _ => rfl⟩
  rw [if_neg h2]
  refine ⟨?_, ?_, fun hcon => absurd hcon h2⟩
  · simp only [collapseMain]
    rw [cons_diff_map_sum _ _ (collapseSingles_ne_nil alpha particles)]
    rw [collapseSingles_last]
    have hws := collapseWeightsSorted_length alpha particle_weights particles
    have hwsne : collapseWeightsSorted alpha particle_weights particles ≠ []
      := by
      intro hnil
      rw [hnil] at hws
      simp at hws
      omega
    rw [show particles.length - 1 =
        (collapseWeightsSorted alpha particle_weights particles).length - 1
      from by rw [hws]]
    unfold cumsum
    rw [cumsumGo_getD_last _ 0 hwsne, zero_add]
    exact collapseWeightsSorted_sum alpha particle_weights particles hlen
  · simp only [collapseMain]
    rw [List.length_map]
    exact collapseSingles_length_le alpha particles (by omega)

/-- C5 (witness): the collapse invariants evaluated on a concrete two-particle
population with identical particles. -/
theorem c5_witness :
    (collapse_particles [1, 2] [1/2, 1/2]
        [[true, false], [true, false]]).1.sum = ([1/2, 1/2] : List ℚ).sum ∧
      (collapse_particles [1, 2] [1/2, 1/2]
        [[true, false], [true, false]]).2.length ≤
        ([[true, false], [true, false]] : List BVec).length ∧
      (([[true, false], [true, false]] : List BVec).length < 2 →
        collapse_particles [1, 2] [1/2, 1/2] [[true, false], [true, false]] =
          ([1/2, 1/2], [[true, false], [true, false]])) :=
  c5_collapse_particles [1, 2] [1/2, 1/2] [[true, false], [true, false]] rfl

/-! ### Joint outcome-probability table (mutual_information.py) -/

/-- `probabilities_new_test` for one particle: the two outcome probabilities
`(specificity − rho·positive, 1 − specificity + rho·positive)` (the Python
function stacks these per particle along the last axis). -/
def probabilities_new_test (positive_in_group : Bool) (specificity rho : ℚ) :
    ℚ × ℚ :=
  (specificity - rho * (if positive_in_group then 1 else 0),
   1 - specificity + rho * (if positive_in_group then 1 else 0))

/-- `upd_prob_groups_x_particle_x_states`: the per-particle row `r` of the
`[num_particles, 2^k]` table becomes `p0·r ++ p1·r`, doubling the outcome
dimension. -/
def upd_prob_groups_x_particle_x_states (prob_prev : List (List ℚ))
    (positive_in_group : List Bool) (specificity rho : ℚ) : List (List ℚ) :=
  (prob_prev.zip positive_in_group).map (fun rp =>
    (rp.1.map
      (fun x => (probabilities_new_test rp.2 specificity rho).1 * x)) ++
    (rp.1.map
      (fun x => (probabilities_new_test rp.2 specificity rho).2 * x)))

/-- The joint outcome table maintained across the committed groups of one
batch: the all-ones `[num_particles, 1]` table, updated once per committed
group with that group's per-particle positivity vector and its resolved
specificity and rho. -/
def committedTables (n_particles : ℕ)
    (steps : List (List Bool × ℚ × ℚ)) : List (List ℚ) :=
  steps.foldl
    (fun tbl step =>
      upd_prob_groups_x_particle_x_states tbl step.1 step.2.1 step.2.2)
    (List.replicate n_particles [1])

theorem probabilities_new_test_sum (b : Bool) (specificity rho : ℚ) :
    (probabilities_new_test b specificity rho).1 +
      (probabilities_new_test b specificity rho).2 = 1 := by
  cases b <;> simp [probabilities_new_test]

theorem upd_preserves (tbl : List (List ℚ)) (pos : List Bool) (s r : ℚ)
    (n k : ℕ) (hlen : tbl.length = n) (hpos : pos.length = n)
    (hrows : ∀ row ∈ tbl, row.length = 2 ^ k ∧ row.sum = 1) :
    (upd_prob_groups_x_particle_x_states tbl pos s r).length = n ∧
      ∀ row ∈ upd_prob_groups_x_particle_x_states tbl pos s r,
        row.length = 2 ^ (k + 1) ∧ row.sum = 1 := by
  constructor
  · unfold upd_prob_groups_x_particle_x_states
    rw [List.length_map, List.length_zip, hlen, hpos]
    omega
  · intro row hrow
    obtain ⟨rp, hrp, hrow⟩ := List.mem_map.mp hrow
    have hr1 : rp.1 ∈ tbl := (List.of_mem_zip hrp).1
    obtain ⟨hrl, hrs⟩ := hrows rp.1 hr1
    subst hrow
    constructor
    · rw [List.length_append, List.length_map, List.length_map, hrl]
      ring
    · rw [List.sum_append, List.sum_map_mul_left, List.sum_map_mul_left]
      simp only [List.map_id']
      rw [hrs]
      have := probabilities_new_test_sum rp.2 s r
      linarith

theorem committedTables_fold_invariant (steps : List (List Bool × ℚ × ℚ))
    (tbl : List (List ℚ)) (n k : ℕ) (hlen : tbl.length = n)
    (hsteps : ∀ step ∈ steps, step.1.length = n)
    (hrows : ∀ row ∈ tbl, row.length = 2 ^ k ∧ row.sum = 1) :
    (steps.foldl (fun t step =>
        upd_prob_groups_x_particle_x_states t step.1 step.2.1 step.2.2)
      tbl).length = n ∧
    ∀ row ∈ steps.foldl (fun t step =>
        upd_prob_groups_x_particle_x_states t step.1 step.2.1 step.2.2) tbl,
      row.length = 2 ^ (k + steps.length) ∧ row.sum = 1 := by
  induction steps generalizing tbl k with
  | nil =>
    refine ⟨by simpa using hlen, ?_⟩
    intro row hrow
    simp only [List.foldl_nil] at hrow
    simpa using hrows row hrow
  | cons step rest ih =>
    have hstep : step.1.length = n := hsteps step (by simp)
    obtain ⟨hlen', hrows'⟩ := upd_preserves tbl step.1 step.2.1 step.2.2 n k
      hlen hstep hrows
    have hrest : ∀ s ∈ rest, s.1.length = n := fun s hs =>
      hsteps s (by simp [hs])
    obtain ⟨ha, hb⟩ := ih
      (upd_prob_groups_x_particle_x_states tbl step.1 step.2.1 step.2.2)
      (k + 1) hlen' hrest hrows'
    refine ⟨by simpa using ha, ?_⟩
    intro row hrow
    simp only [List.foldl_cons] at hrow
    obtain ⟨hrl, hrs⟩ := hb row hrow
    refine ⟨?_, hrs⟩
    rw [hrl]
    congr 1
    simp
    omega

/-- C7: the two per-particle outcome probabilities of
`probabilities_new_test` sum exactly to `1` for every specificity and rho;
consequently the joint outcome table, which starts as the all-ones
`[num_particles, 1]` table and is doubled by
`upd_prob_groups_x_particle_x_states` once per committed group, keeps every
per-particle row summing exactly to `1` and has `2^k` columns after `k`
committed groups. -/
theorem c7_outcome_table_invariant :
    (∀ (b : Bool) (specificity rho : ℚ),
      (probabilities_new_test b specificity rho).1 +
        (probabilities_new_test b specificity rho).2 = 1) ∧
    (∀ (n_particles : ℕ) (steps : List (List Bool × ℚ × ℚ)),
      (∀ step ∈ steps, step.1.length = n_particles) →
      (committedTables n_particles steps).length = n_particles ∧
        ∀ row ∈ committedTables n_particles steps,
          row.length = 2 ^ steps.length ∧ row.sum = 1) := by
  constructor
  · exact probabilities_new_test_sum
  · intro n steps hsteps
    have hbase : ∀ row ∈ List.replicate n ([1] : List ℚ),
        row.length = 2 ^ 0 ∧ row.sum = 1 := by
      intro row hrow
      rw [List.eq_of_mem_replicate hrow]
      constructor <;> simp
    obtain ⟨ha, hb⟩ := committedTables_fold_invariant steps
      (List.replicate n [1]) n 0 (List.length_replicate n [1]) hsteps hbase
    refine ⟨ha, ?_⟩
    intro row hrow
    obtain ⟨hrl, hrs⟩ := hb row hrow
    refine ⟨?_, hrs⟩
    rw [hrl]
    congr 1
    omega

/-- C7 (witness): the row-sum identity at a concrete specificity and rho, and
the table shape after one committed group on two particles. -/
theorem c7_witness :
    (probabilities_new_test true (9/10) (7/10)).1 +
      (probabilities_new_test true (9/10) (7/10)).2 = 1 ∧
    (committedTables 2 [([true, false], 9/10, 7/10)]).length = 2 :=
  ⟨c7_outcome_table_invariant.1 true (9/10) (7/10),
    (c7_outcome_table_invariant.2 2 [([true, false], 9/10, 7/10)]
      (by decide)).1⟩

/-! ### InformativeDorfman (informative_dorfman.py) -/

/-- Modelled from the spec: `utils.select_from_sizes` is code of this
repository outside the embedded sources.  Per the spec's resolver contract,
the parameter is a single value or a sequence indexed by group size
(size `1` at the first entry), and sizes at or beyond the table's length
resolve to the last defined value. -/
def select_from_sizes (param : List ℚ) (size : ℕ) : ℚ :=
  param.getD (min (size - 1) (param.length - 1)) 0

/-- The posterior marginal of patient `p`:
`np.sum(particle_weights[:, None] * particles, axis=0)`. -/
def marginal (st : State) (p : ℕ) : ℚ :=
  ((st.particle_weights.zip st.particles).map
    (fun wp => wp.1 * (if wp.2.getD p false then 1 else 0))).sum

/-- `np.where(marginal < cut_off_high and marginal > cut_off_low)`: the
eligible patients, in ascending index order. -/
def not_cut_ids (cut_off_high cut_off_low : ℚ) (st : State) : List ℕ :=
  (List.range st.num_patients).filter
    (fun p => decide (marginal st p < cut_off_high ∧
      cut_off_low < marginal st p))

/-- Running partial products with an accumulator (`np.cumprod`). -/
def cumprodGo (acc : ℚ) : List ℚ → List ℚ
  | [] => []
  | x :: xs => (acc * x) :: cumprodGo (acc * x) xs

/-- `np.cumprod`. -/
def cumprod (l : List ℚ) : List ℚ := cumprodGo 1 l

/-- Minimum of a nonempty rational list (`0` for the empty list, unused). -/
def minList : List ℚ → ℚ
  | [] => 0
  | [x] => x
  | x :: y :: xs => min x (minList (y :: xs))

/-- `np.argmin`: index of the first occurrence of the minimum. -/
def argminList : List ℚ → ℕ
  | [] => 0
  | [_] => 0
  | x :: y :: xs =>
    if x ≤ minList (y :: xs) then 0 else argminList (y :: xs) + 1

/-- The `exp_div_size` cost vector of one round of the Informative Dorfman
loop, indexed by `i = size - 1` for sizes `1 .. index_max`: the general
formula `(1 + s·(sens + (1 − sens − spec)·cumprod))/s` with the entry at
index `0` overwritten to `1` (`exp_div_size[0] = 1`). -/
def expDivSize (sens spec sorted_marginal : List ℚ)
    (n_p index_max : ℕ) : List ℚ :=
  (List.range index_max).map (fun i =>
    if i = 0 then 1 else
      (1 + ((i + 1 : ℕ) : ℚ) * (select_from_sizes sens (i + 1) +
        (1 - select_from_sizes sens (i + 1) -
          select_from_sizes spec (i + 1)) *
        (cumprod (((sorted_marginal.drop n_p).take index_max).map
          (fun m => 1 - m))).getD i 0)) / ((i + 1 : ℕ) : ℚ))

/-- The greedy cursor loop of `InformativeDorfman.__call__`: starting at
sorted position `n_p`, pick the cost-minimizing size, emit the indicator row
of the next that-many sorted patients, advance.  Structural recursion on a
fuel that the caller sets to the eligible-patient count (each round consumes
at least one patient, so the fuel never runs out before the cursor reaches
the end). -/
def idLoopGo (max_group_size : ℕ) (sens spec : List ℚ) (n_patients : ℕ)
    (patients_sorted : List ℕ) (sorted_marginal : List ℚ) :
    ℕ → ℕ → List BVec
  | 0, _ => []
  | fuel + 1, n_p =>
    if n_p < sorted_marginal.length then
      indicator_row n_patients ((patients_sorted.drop n_p).take
        (argminList (expDivSize sens spec sorted_marginal n_p
          (min (sorted_marginal.length - n_p) max_group_size)) + 1)) ::
      idLoopGo max_group_size sens spec n_patients patients_sorted
        sorted_marginal fuel
        (n_p + (argminList (expDivSize sens spec sorted_marginal n_p
          (min (sorted_marginal.length - n_p) max_group_size)) + 1))
    else []

/-- The sizes chosen by successive rounds of the greedy loop
(`opt_size_group = argmin(exp_div_size) + 1`, cursor advanced by that
amount). -/
def idSizesGo (max_group_size : ℕ) (sens spec : List ℚ)
    (sorted_marginal : List ℚ) : ℕ → ℕ → List ℕ
  | 0, _ => []
  | fuel + 1, n_p =>
    if n_p < sorted_marginal.length then
      (argminList (expDivSize sens spec sorted_marginal n_p
        (min (sorted_marginal.length - n_p) max_group_size)) + 1) ::
      idSizesGo max_group_size sens spec sorted_marginal fuel
        (n_p + (argminList (expDivSize sens spec sorted_marginal n_p
          (min (sorted_marginal.length - n_p) max_group_size)) + 1))
    else []

/-- The ascending-sorted marginals of the eligible patients
(`sorted_marginal = marginal[sorted_ids]`). -/
def sortedEligibleMarginals (cut_off_high cut_off_low : ℚ) (st : State) :
    List ℚ :=
  (sortedIndices ((not_cut_ids cut_off_high cut_off_low st).map (marginal st))
      ((not_cut_ids cut_off_high cut_off_low st).map (marginal st)).length).map
    (fun i => ((not_cut_ids cut_off_high cut_off_low st).map
      (marginal st)).getD i 0)

/-- The eligible patient ids in ascending-marginal order
(`not_cut_ids[sorted_ids]`). -/
def sortedEligiblePatients (cut_off_high cut_off_low : ℚ) (st : State) :
    List ℕ :=
  (sortedIndices ((not_cut_ids cut_off_high cut_off_low st).map (marginal st))
      ((not_cut_ids cut_off_high cut_off_low st).map (marginal st)).length).map
    (fun i => (not_cut_ids cut_off_high cut_off_low st).getD i 0)

/-- The groups formed by `InformativeDorfman.__call__` before the random
permutation and capacity sub-sampling. -/
def informativeDorfmanGroups (cut_off_high cut_off_low : ℚ) (st : State) :
    List BVec :=
  idLoopGo st.max_group_size st.prior_sensitivity st.prior_specificity
    st.num_patients (sortedEligiblePatients cut_off_high cut_off_low st)
    (sortedEligibleMarginals cut_off_high cut_off_low st)
    (not_cut_ids cut_off_high cut_off_low st).length 0

/-- `InformativeDorfman.__call__`.  The `jax.random.permutation` of the
group list is modelled by the explicit `shuffle` parameter; with
`modified = True` only the first `extra_tests_needed` shuffled groups are
queued. -/
def informativeDorfmanCall (cut_off_high cut_off_low : ℚ) (modified : Bool)
    (shuffle : List BVec → List BVec) (st : State) : State :=
  if (not_cut_ids cut_off_high cut_off_low st).length = 0 then
    { st with all_cleared := true }
  else
    if modified then
      add_groups_to_test st
        ((shuffle (informativeDorfmanGroups cut_off_high cut_off_low st)).take
          st.extra_tests_needed) true
    else
      add_groups_to_test st
        (shuffle (informativeDorfmanGroups cut_off_high cut_off_low st)) true

/-! ### C9: no eligible patients -/

/-- C9: when no patient's marginal lies strictly between `cut_off_low` and
`cut_off_high`, `InformativeDorfman` sets `all_cleared` and changes nothing
else (no groups are queued). -/
theorem c9_no_eligible_all_cleared (cut_off_high cut_off_low : ℚ)
    (modified : Bool) (shuffle : List BVec → List BVec) (st : State)
    (h : ∀ p < st.num_patients,
      ¬ (cut_off_low < marginal st p ∧ marginal st p < cut_off_high)) :
    informativeDorfmanCall cut_off_high cut_off_low modified shuffle st =
      { st with all_cleared := true } := by
  have hids : not_cut_ids cut_off_high cut_off_low st = [] := by
    apply List.filter_eq_nil_iff.mpr
    intro p hp
    have hplt := List.mem_range.mp hp
    simp only [decide_eq_true_eq]
    intro hcon
    exact h p hplt ⟨hcon.2, hcon.1⟩
  unfold informativeDorfmanCall
  rw [hids]
  rfl

/-- C9 (witness): a single patient whose marginal is exactly `1` is not
strictly below `cut_off_high = 1`, so the round resolves immediately. -/
theorem c9_witness :
    informativeDorfmanCall 1 0 false id
        { c1State with
          num_patients := 1
          particles := [[true]]
          particle_weights := [1] } =
      { c1State with
        num_patients := 1
        particles := [[true]]
        particle_weights := [1]
        all_cleared := true } :=
  c9_no_eligible_all_cleared 1 0 false id _ (by
    intro p hp
    have hp1 : p < 1 := hp
    have hp0 : p = 0 := by omega
    subst hp0
    simp [marginal])

/-! ### C8: greedy cost-minimizing grouping -/

theorem minList_cons_cons (x y : ℚ) (ys : List ℚ) :
    minList (x :: y :: ys) = min x (minList (y :: ys)) := rfl

theorem minList_le_getD (x : ℚ) (xs : List ℚ) :
    ∀ k < (x :: xs).length, minList (x :: xs) ≤ (x :: xs).getD k 0 := by
  induction xs generalizing x with
  | nil =>
    intro k hk
    have : k = 0 := by simpa using hk
    subst this
    exact le_refl x
  | cons y ys ih =>
    intro k hk
    cases k with
    | zero =>
      show min x (minList (y :: ys)) ≤ x
      exact min_le_left _ _
    | succ k =>
      have hk' : k < (y :: ys).length := by simpa using hk
      have h1 : minList (x :: y :: ys) ≤ minList (y :: ys) := by
        rw [minList_cons_cons]
        exact min_le_right _ _
      have hred : (x :: y :: ys).getD (k + 1) 0 = (y :: ys).getD k 0 := rfl
      rw [hred]
      exact le_trans h1 (ih y k hk')

theorem argminList_lt_length (x : ℚ) (xs : List ℚ) :
    argminList (x :: xs) < (x :: xs).length := by
  induction xs generalizing x with
  | nil => simp [argminList]
  | cons y ys ih =>
    by_cases h : x ≤ minList (y :: ys)
    · simp [argminList, h]
    · simp only [argminList, if_neg h, List.length_cons]
      exact Nat.succ_lt_succ (ih y)

theorem getD_argmin_eq_minList (x : ℚ) (xs : List ℚ) :
    (x :: xs).getD (argminList (x :: xs)) 0 = minList (x :: xs) := by
  induction xs generalizing x with
  | nil => simp [argminList, minList]
  | cons y ys ih =>
    by_cases h : x ≤ minList (y :: ys)
    · simp only [argminList, if_pos h]
      show x = minList (x :: y :: ys)
      rw [minList_cons_cons, min_eq_left h]
    · simp only [argminList, if_neg h]
      have hred : (x :: y :: ys).getD (argminList (y :: ys) + 1) 0 =
          (y :: ys).getD (argminList (y :: ys)) 0 := rfl
      rw [hred, ih y, minList_cons_cons,
        min_eq_right (le_of_lt (not_le.mp h))]

theorem argminList_first (x : ℚ) (xs : List ℚ) :
    ∀ k < argminList (x :: xs), minList (x :: xs) < (x :: xs).getD k 0 := by
  induction xs generalizing x with
  | nil =>
    intro k hk
    simp [argminList] at hk
  | cons y ys ih =>
    intro k hk
    by_cases h : x ≤ minList (y :: ys)
    · simp [argminList, if_pos h] at hk
    · simp only [argminList, if_neg h] at hk
      rw [minList_cons_cons, min_eq_right (le_of_lt (not_le.mp h))]
      cases k with
      | zero => exact not_le.mp h
      | succ k =>
        have hk' : k < argminList (y :: ys) := by omega
        have hred : (x :: y :: ys).getD (k + 1) 0 = (y :: ys).getD k 0 := rfl
        rw [hred]
        exact ih y k hk'

theorem argminList_spec (l : List ℚ) (hl : l ≠ []) :
    argminList l < l.length ∧
      l.getD (argminList l) 0 = minList l ∧
      (∀ k < l.length, minList l ≤ l.getD k 0) ∧
      (∀ k < argminList l, minList l < l.getD k 0) := by
  match l, hl with
  | x :: xs, _ =>
    exact ⟨argminList_lt_length x xs, getD_argmin_eq_minList x xs,
      minList_le_getD x xs, argminList_first x xs⟩

theorem cumprodGo_getD (l : List ℚ) (acc : ℚ) :
    ∀ i < l.length,
      (cumprodGo acc l).getD i 0 = acc * ((l.take (i + 1)).prod) := by
  induction l generalizing acc with
  | nil =>
    intro i hi
    simp at hi
  | cons x xs ih =>
    intro i hi
    cases i with
    | zero =>
      show acc * x = acc * (((x :: xs).take 1).prod)
      simp
    | succ i =>
      have hi' : i < xs.length := by simpa using hi
      have hred : (cumprodGo acc (x :: xs)).getD (i + 1) 0 =
          (cumprodGo (acc * x) xs).getD i 0 := rfl
      rw [hred, ih (acc * x) i hi', List.take_succ_cons, List.prod_cons]
      ring

theorem getD_range (k i : ℕ) (h : i < k) : (List.range k).getD i 0 = i := by
  rw [List.getD_eq_getElem?_getD,
    List.getElem?_eq_getElem (by simpa using h)]
  simp

/-- The per-patient expected-test cost as the claim states it: testing the
next `s` sorted eligible patients (marginals `ms`) as one group costs
`(1 + s·(sens(s) + (1 − sens(s) − spec(s))·∏_{i<s}(1 − m_i)))/s`, except that
size `1` costs exactly `1` by explicit override. -/
def specCost (sens spec ms : List ℚ) (s : ℕ) : ℚ :=
  if s = 1 then 1 else
    (1 + (s : ℚ) * (select_from_sizes sens s +
      (1 - select_from_sizes sens s - select_from_sizes spec s) *
        ((ms.take s).map (fun m => 1 - m)).prod)) / (s : ℚ)

theorem expDivSize_length (sens spec sm : List ℚ) (n_p index_max : ℕ) :
    (expDivSize sens spec sm n_p index_max).length = index_max := by
  unfold expDivSize
  rw [List.length_map, List.length_range]

theorem expDivSize_getD (sens spec sm : List ℚ) (n_p index_max : ℕ)
    (hmax : index_max ≤ sm.length - n_p) :
    ∀ i < index_max,
      (expDivSize sens spec sm n_p index_max).getD i 0 =
        specCost sens spec (sm.drop n_p) (i + 1) := by
  intro i hi
  unfold expDivSize
  rw [getD_map_of_lt (List.range index_max) _ i (by simpa using hi) 0 0]
  rw [getD_range index_max i hi]
  by_cases h0 : i = 0
  · subst h0
    rw [if_pos rfl]
    unfold specCost
    rw [if_pos rfl]
  · rw [if_neg h0]
    unfold specCost
    rw [if_neg (by omega)]
    have hcp : (cumprod (((sm.drop n_p).take index_max).map
        (fun m => 1 - m))).getD i 0 =
        (((sm.drop n_p).take (i + 1)).map (fun m => 1 - m)).prod := by
      unfold cumprod
      have hlen : (((sm.drop n_p).take index_max).map
          (fun m => 1 - m)).length = index_max := by
        rw [List.length_map, List.length_take, List.length_drop]
        omega
      rw [cumprodGo_getD _ 1 i (by rw [hlen]; exact hi), one_mul]
      rw [← List.map_take]
      rw [List.take_take]
      rw [min_eq_left (by omega)]
    rw [hcp]

/-- `s` is the cost-minimizing candidate size in `1 .. bound`, with the
lowest size winning ties. -/
def IsLeastMinimizer (f : ℕ → ℚ) (bound s : ℕ) : Prop :=
  1 ≤ s ∧ s ≤ bound ∧ (∀ t, 1 ≤ t → t ≤ bound → f s ≤ f t) ∧
    ∀ t, 1 ≤ t → t < s → f s < f t

theorem argmin_expDiv_lt (sens spec sm : List ℚ) (mgs n_p : ℕ)
    (hnp : n_p < sm.length) (hm : 1 ≤ mgs) :
    argminList (expDivSize sens spec sm n_p (min (sm.length - n_p) mgs)) <
      min (sm.length - n_p) mgs := by
  have hb1 : 1 ≤ min (sm.length - n_p) mgs := le_min (by omega) hm
  have hlen := expDivSize_length sens spec sm n_p (min (sm.length - n_p) mgs)
  have hne : expDivSize sens spec sm n_p (min (sm.length - n_p) mgs) ≠ [] := by
    intro hnil
    rw [hnil] at hlen
    simp at hlen
    omega
  have := (argminList_spec _ hne).1
  rw [hlen] at this
  exact this

theorem round_isLeastMinimizer (sens spec sm : List ℚ) (mgs n_p : ℕ)
    (hnp : n_p < sm.length) (hm : 1 ≤ mgs) :
    IsLeastMinimizer (specCost sens spec (sm.drop n_p))
      (min (sm.length - n_p) mgs)
      (argminList (expDivSize sens spec sm n_p
        (min (sm.length - n_p) mgs)) + 1) := by
  have hb1 : 1 ≤ min (sm.length - n_p) mgs := le_min (by omega) hm
  have hlen := expDivSize_length sens spec sm n_p (min (sm.length - n_p) mgs)
  have hne : expDivSize sens spec sm n_p (min (sm.length - n_p) mgs) ≠ [] := by
    intro hnil
    rw [hnil] at hlen
    simp at hlen
    omega
  obtain ⟨ha, hb, hc, hd⟩ := argminList_spec _ hne
  have hgd := expDivSize_getD sens spec sm n_p (min (sm.length - n_p) mgs)
    (min_le_left _ _)
  have hA : argminList (expDivSize sens spec sm n_p
      (min (sm.length - n_p) mgs)) < min (sm.length - n_p) mgs := by
    rw [hlen] at ha
    exact ha
  have hfa : specCost sens spec (sm.drop n_p)
      (argminList (expDivSize sens spec sm n_p
        (min (sm.length - n_p) mgs)) + 1) =
      minList (expDivSize sens spec sm n_p (min (sm.length - n_p) mgs)) := by
    rw [← hgd _ hA]
    exact hb
  refine ⟨by omega, by omega, ?_, ?_⟩
  · intro t h1t htb
    have htA : t - 1 < min (sm.length - n_p) mgs := by omega
    have hle := hc (t - 1) (by rw [hlen]; exact htA)
    rw [hgd (t - 1) htA] at hle
    rw [show t - 1 + 1 = t from by omega] at hle
    rw [hfa]
    exact hle
  · intro t h1t htA
    have ht1 : t - 1 < argminList (expDivSize sens spec sm n_p
        (min (sm.length - n_p) mgs)) := by omega
    have hlt := hd (t - 1) ht1
    have htlt : t - 1 < min (sm.length - n_p) mgs := by omega
    rw [hgd (t - 1) htlt] at hlt
    rw [show t - 1 + 1 = t from by omega] at hlt
    rw [hfa]
    exact hlt

theorem idLoopGo_eq_blocks (mgs : ℕ) (sens spec : List ℚ) (n : ℕ)
    (pats : List ℕ) (sm : List ℚ) :
    ∀ (fuel n_p : ℕ),
      idLoopGo mgs sens spec n pats sm fuel n_p =
        (splitBySizes (idSizesGo mgs sens spec sm fuel n_p)
          (pats.drop n_p)).map (indicator_row n) := by
  intro fuel
  induction fuel with
  | zero => intro n_p; rfl
  | succ fuel ih =>
    intro n_p
    by_cases h : n_p < sm.length
    · simp only [idLoopGo, idSizesGo, if_pos h]
      show _ :: _ = _
      rw [splitBySizes, List.map_cons]
      congr 1
      rw [ih]
      congr 1
      rw [List.drop_drop]
    · simp only [idLoopGo, idSizesGo, if_neg h]
      rfl

theorem idSizesGo_sum (mgs : ℕ) (sens spec sm : List ℚ) (hm : 1 ≤ mgs) :
    ∀ (fuel n_p : ℕ), sm.length - n_p ≤ fuel →
      (idSizesGo mgs sens spec sm fuel n_p).sum = sm.length - n_p := by
  intro fuel
  induction fuel with
  | zero =>
    intro n_p h
    simp only [idSizesGo, List.sum_nil]
    omega
  | succ fuel ih =>
    intro n_p hfuel
    by_cases h : n_p < sm.length
    · simp only [idSizesGo, if_pos h, List.sum_cons]
      have hA := argmin_expDiv_lt sens spec sm mgs n_p h hm
      have hrec := ih (n_p + (argminList (expDivSize sens spec sm n_p
        (min (sm.length - n_p) mgs)) + 1)) (by omega)
      rw [hrec]
      omega
    · simp only [idSizesGo, if_neg h]
      simp
      omega

theorem idSizesGo_pos (mgs : ℕ) (sens spec sm : List ℚ) :
    ∀ (fuel n_p : ℕ), ∀ s ∈ idSizesGo mgs sens spec sm fuel n_p, 1 ≤ s := by
  intro fuel
  induction fuel with
  | zero => intro n_p s hs; simp [idSizesGo] at hs
  | succ fuel ih =>
    intro n_p s hs
    by_cases h : n_p < sm.length
    · simp only [idSizesGo, if_pos h, List.mem_cons] at hs
      rcases hs with hs | hs
      · omega
      · exact ih _ s hs
    · simp only [idSizesGo, if_neg h] at hs
      simp at hs

theorem idSizesGo_ne_nil (mgs : ℕ) (sens spec sm : List ℚ)
    (fuel n_p : ℕ) (hf : 0 < fuel) (h : n_p < sm.length) :
    idSizesGo mgs sens spec sm fuel n_p ≠ [] := by
  match fuel, hf with
  | fuel + 1, _ =>
    simp only [idSizesGo, if_pos h]
    simp

theorem idSizesGo_least (mgs : ℕ) (sens spec sm : List ℚ) (hm : 1 ≤ mgs) :
    ∀ (fuel n_p j : ℕ), j < (idSizesGo mgs sens spec sm fuel n_p).length →
      IsLeastMinimizer
        (specCost sens spec (sm.drop
          (n_p + ((idSizesGo mgs sens spec sm fuel n_p).take j).sum)))
        (min (sm.length -
          (n_p + ((idSizesGo mgs sens spec sm fuel n_p).take j).sum)) mgs)
        ((idSizesGo mgs sens spec sm fuel n_p).getD j 0) := by
  intro fuel
  induction fuel with
  | zero =>
    intro n_p j hj
    simp [idSizesGo] at hj
  | succ fuel ih =>
    intro n_p j hj
    by_cases h : n_p < sm.length
    swap
    · simp only [idSizesGo, if_neg h] at hj
      simp at hj
    simp only [idSizesGo, if_pos h] at hj ⊢
    cases j with
    | zero =>
      simp only [List.take_zero, List.sum_nil, Nat.add_zero,
        List.getD_cons_zero]
      exact round_isLeastMinimizer sens spec sm mgs n_p h hm
    | succ j =>
      have hj' : j < (idSizesGo mgs sens spec sm fuel
          (n_p + (argminList (expDivSize sens spec sm n_p
            (min (sm.length - n_p) mgs)) + 1))).length := by
        simpa using hj
      have hrec := ih (n_p + (argminList (expDivSize sens spec sm n_p
        (min (sm.length - n_p) mgs)) + 1)) j hj'
      simp only [List.take_succ_cons, List.sum_cons, List.getD_cons_succ]
      rw [← Nat.add_assoc]
      exact hrec

theorem splitBySizes_flatten (sizes : List ℕ) (l : List α)
    (h : sizes.sum = l.length) : (splitBySizes sizes l).flatten = l := by
  induction sizes generalizing l with
  | nil =>
    have : l = [] := by
      apply List.length_eq_zero.mp
      simp at h
      omega
    rw [this]
    rfl
  | cons s rest ih =>
    simp only [splitBySizes, List.flatten_cons]
    rw [ih (l.drop s) (by rw [List.length_drop]; simp [List.sum_cons] at h; omega)]
    exact List.take_append_drop s l

theorem splitBySizes_sublist (sizes : List ℕ) (l : List α) :
    ∀ part ∈ splitBySizes sizes l, part.Sublist l := by
  induction sizes generalizing l with
  | nil => intro part hp; simp [splitBySizes] at hp
  | cons s rest ih =>
    intro part hp
    simp only [splitBySizes, List.mem_cons] at hp
    rcases hp with hp | hp
    · subst hp
      exact List.take_sublist s l
    · exact (ih (l.drop s) part hp).trans (List.drop_sublist s l)

theorem countP_mem_blocks (blocks : List (List ℕ)) (p : ℕ)
    (hnd : ∀ b ∈ blocks, b.Nodup) :
    blocks.countP (fun b => decide (p ∈ b)) = blocks.flatten.count p := by
  induction blocks with
  | nil => rfl
  | cons b rest ih =>
    rw [List.countP_cons, List.flatten_cons, List.count_append]
    rw [ih (fun b hb => hnd b (by simp [hb]))]
    by_cases hp : p ∈ b
    · rw [List.count_eq_one_of_mem (hnd b (by simp)) hp]
      simp [hp]
      omega
    · rw [List.count_eq_zero.mpr hp]
      simp [hp]

theorem countP_indicator_blocks (n : ℕ) (blocks : List (List ℕ)) (p : ℕ) :
    (blocks.map (indicator_row n)).countP (fun g => g.getD p false) =
      if p < n then blocks.countP (fun b => decide (p ∈ b)) else 0 := by
  rw [List.countP_map]
  by_cases hp : p < n
  · rw [if_pos hp]
    apply List.countP_congr
    intro b _
    have hval : (indicator_row n b).getD p false = decide (p ∈ b) := by
      unfold indicator_row
      rw [getD_map_of_lt (List.range n) _ p (by simpa using hp) 0 false]
      rw [getD_range n p hp]
    simp only [Function.comp_apply, hval]
  · rw [if_neg hp]
    apply List.countP_eq_zero.mpr
    intro b _
    have hlen : (indicator_row n b).length ≤ p := by
      unfold indicator_row
      rw [List.length_map, List.length_range]
      omega
    simp only [Function.comp_apply]
    rw [List.getD_eq_default _ _ hlen]
    simp

theorem sortedEligibleMarginals_length (ch cl : ℚ) (st : State) :
    (sortedEligibleMarginals ch cl st).length =
      (not_cut_ids ch cl st).length := by
  unfold sortedEligibleMarginals sortedIndices
  rw [List.length_map, (List.perm_insertionSort _ _).length_eq,
    List.length_range, List.length_map]

theorem sortedEligiblePatients_perm (ch cl : ℚ) (st : State) :
    List.Perm (sortedEligiblePatients ch cl st) (not_cut_ids ch cl st) := by
  unfold sortedEligiblePatients sortedIndices
  rw [List.length_map]
  have h2 := (List.perm_insertionSort
    (fun i j => ((not_cut_ids ch cl st).map (marginal st)).getD i 0 ≤
      ((not_cut_ids ch cl st).map (marginal st)).getD j 0)
    (List.range (not_cut_ids ch cl st).length)).map
    (fun i => (not_cut_ids ch cl st).getD i 0)
  rw [map_getD_range] at h2
  exact h2

theorem not_cut_ids_nodup (ch cl : ℚ) (st : State) :
    (not_cut_ids ch cl st).Nodup :=
  (List.nodup_range st.num_patients).filter _

theorem not_cut_ids_lt (ch cl : ℚ) (st : State) :
    ∀ p ∈ not_cut_ids ch cl st, p < st.num_patients := fun p hp =>
  List.mem_range.mp (List.mem_filter.mp hp).1

/-- The block sizes chosen by the greedy loop for a given state. -/
def idChosenSizes (cut_off_high cut_off_low : ℚ) (st : State) : List ℕ :=
  idSizesGo st.max_group_size st.prior_sensitivity st.prior_specificity
    (sortedEligibleMarginals cut_off_high cut_off_low st)
    (not_cut_ids cut_off_high cut_off_low st).length 0

/-- C8: on every state with at least one eligible patient (and
`max_group_size ≥ 1`), `InformativeDorfman` forms its batch by the greedy
cursor over the ascending-sorted eligible patients: the batch is exactly the
indicator rows of consecutive blocks of the sorted eligible-patient list; the
chosen block sizes consume all eligible patients; each chosen size is the
cost-minimizing candidate size at its cursor position — sizes `1` through
`min(remaining, max_group_size)` scored by the claim's cost formula, with the
explicit size-1 override and the lowest size winning ties; and every eligible
patient ends up in exactly one group, every other patient in none. -/
theorem c8_informative_dorfman_greedy (cut_off_high cut_off_low : ℚ)
    (st : State) (hmax : 1 ≤ st.max_group_size)
    (hne : not_cut_ids cut_off_high cut_off_low st ≠ []) :
    (informativeDorfmanGroups cut_off_high cut_off_low st =
      (splitBySizes (idChosenSizes cut_off_high cut_off_low st)
        (sortedEligiblePatients cut_off_high cut_off_low st)).map
        (indicator_row st.num_patients)) ∧
    (idChosenSizes cut_off_high cut_off_low st).sum =
      (not_cut_ids cut_off_high cut_off_low st).length ∧
    idChosenSizes cut_off_high cut_off_low st ≠ [] ∧
    (∀ j < (idChosenSizes cut_off_high cut_off_low st).length,
      IsLeastMinimizer
        (specCost st.prior_sensitivity st.prior_specificity
          ((sortedEligibleMarginals cut_off_high cut_off_low st).drop
            (((idChosenSizes cut_off_high cut_off_low st).take j).sum)))
        (min ((not_cut_ids cut_off_high cut_off_low st).length -
          (((idChosenSizes cut_off_high cut_off_low st).take j).sum))
          st.max_group_size)
        ((idChosenSizes cut_off_high cut_off_low st).getD j 0)) ∧
    (∀ p : ℕ,
      (informativeDorfmanGroups cut_off_high cut_off_low st).countP
          (fun g => g.getD p false) =
        if p ∈ not_cut_ids cut_off_high cut_off_low st then 1 else 0) := by
  have hsm_len := sortedEligibleMarginals_length cut_off_high cut_off_low st
  have hperm := sortedEligiblePatients_perm cut_off_high cut_off_low st
  have hps_len : (sortedEligiblePatients cut_off_high cut_off_low st).length =
      (not_cut_ids cut_off_high cut_off_low st).length := hperm.length_eq
  have hids_pos : 0 < (not_cut_ids cut_off_high cut_off_low st).length :=
    List.length_pos.mpr hne
  have hblocks : informativeDorfmanGroups cut_off_high cut_off_low st =
      (splitBySizes (idChosenSizes cut_off_high cut_off_low st)
        (sortedEligiblePatients cut_off_high cut_off_low st)).map
        (indicator_row st.num_patients) := by
    unfold informativeDorfmanGroups idChosenSizes
    rw [idLoopGo_eq_blocks]
    rw [List.drop_zero]
  have hsum : (idChosenSizes cut_off_high cut_off_low st).sum =
      (not_cut_ids cut_off_high cut_off_low st).length := by
    unfold idChosenSizes
    rw [idSizesGo_sum st.max_group_size _ _ _ hmax _ 0 (by omega)]
    omega
  have hsizesne : idChosenSizes cut_off_high cut_off_low st ≠ [] := by
    unfold idChosenSizes
    exact idSizesGo_ne_nil _ _ _ _ _ _ hids_pos (by omega)
  refine ⟨hblocks, hsum, hsizesne, ?_, ?_⟩
  · intro j hj
    have := idSizesGo_least st.max_group_size st.prior_sensitivity
      st.prior_specificity
      (sortedEligibleMarginals cut_off_high cut_off_low st) hmax
      (not_cut_ids cut_off_high cut_off_low st).length 0 j hj
    rw [Nat.zero_add, hsm_len] at this
    exact this
  · intro p
    have hnodup_ps : (sortedEligiblePatients cut_off_high cut_off_low st).Nodup
      := (hperm.nodup_iff).mpr (not_cut_ids_nodup cut_off_high cut_off_low st)
    have hnodup_blocks : ∀ b ∈ splitBySizes
        (idChosenSizes cut_off_high cut_off_low st)
        (sortedEligiblePatients cut_off_high cut_off_low st), b.Nodup :=
      fun b hb => (splitBySizes_sublist _ _ b hb).nodup hnodup_ps
    rw [hblocks, countP_indicator_blocks, countP_mem_blocks _ _ hnodup_blocks]
    rw [splitBySizes_flatten _ _ (by rw [hsum, hps_len])]
    by_cases hp : p < st.num_patients
    · rw [if_pos hp]
      by_cases hmem : p ∈ not_cut_ids cut_off_high cut_off_low st
      · rw [if_pos hmem]
        exact List.count_eq_one_of_mem hnodup_ps (hperm.mem_iff.mpr hmem)
      · rw [if_neg hmem]
        apply List.count_eq_zero.mpr
        intro hcon
        exact hmem (hperm.mem_iff.mp hcon)
    · rw [if_neg hp]
      rw [if_neg (fun hcon =>
        hp (not_cut_ids_lt cut_off_high cut_off_low st p hcon))]

/-- Concrete one-patient state whose marginal `1/2` lies strictly between the
cut-offs `0` and `1`. -/
def c8State : State :=
  { c1State with
    num_patients := 1
    max_group_size := 1
    particles := [[true], [false]]
    particle_weights := [1/2, 1/2] }

/-- C8 (witness): on the concrete eligible state, the single eligible patient
is covered by exactly one committed group. -/
theorem c8_witness :
    (informativeDorfmanGroups 1 0 c8State).countP
      (fun g => g.getD 0 false) = 1 := by
  have hmem : 0 ∈ not_cut_ids 1 0 c8State := by
    unfold not_cut_ids
    apply List.mem_filter.mpr
    refine ⟨by decide, ?_⟩
    simp [marginal, c8State]
    norm_num
  have h := (c8_informative_dorfman_greedy 1 0 c8State (le_refl 1)
    (fun hcon => by rw [hcon] at hmem; simp at hmem)).2.2.2.2 0
  rw [if_pos hmem] at h
  exact h

/-! ### MaxMutualInformation.get_groups (mutual_information.py)

The greedy forward/backward loop is embedded with its control flow intact:
group contents, group sizes, the loop condition
`proposed_group_size + forward_it - backward_it <= max_group_size`, the
post-acceptance clamping of `backward_it`, the acceptance test against the
`1e-6` tolerance, the per-commit doubling of the outcome-probability table,
and the Python scoping quirk that `cur_group` is only assigned on acceptance
(reading it unassigned raises `UnboundLocalError`).

Modelled from the spec: the candidate scores of `joint_mi_criterion_mg` are
entropies computed by `metrics.entropy` / `metrics.binary_entropy` —
repository code outside the embedded sources, transcendental per the spec's
formulas — so the argmax choice among candidate patients and the objective
value produced by each criterion call are abstracted as oracle parameters
`orc` and `objs` (indexed by a running criterion-call counter); the theorems
quantify over these oracles.  The cumulative conditional entropy, which
influences nothing but those objective values, is absorbed into `objs`. -/

/-- Whether each particle would test positive w.r.t. the group
(`np.dot(group, particles.T) > 0`). -/
def positivesOf (g : BVec) (particles : List BVec) : List Bool :=
  particles.map (fun part => (g.zip part).any (fun ab => ab.1 && ab.2))

/-- `1e-6`, the minimal-increment acceptance tolerance. -/
def mmAcceptTol : ℚ := 1 / 1000000

/-- One forward step: add the oracle-chosen patient among those not in the
group (the code's `argmax` over candidate objectives); errors like
`np.argmax` does when no candidate remains. -/
def mmForwardStep (orc : ℕ → ℕ) (k : ℕ) (g : BVec) : Except String BVec :=
  let cands := (List.range g.length).filter (fun j => !(g.getD j false))
  if cands.length = 0 then .error "argmax of an empty sequence"
  else .ok (g.set (cands.getD (orc k % cands.length) 0) true)

/-- One backward step: remove the oracle-chosen member
(`candidate_groups` each drop exactly one member). -/
def mmBackwardStep (orc : ℕ → ℕ) (k : ℕ) (g : BVec) : Except String BVec :=
  let mems := (List.range g.length).filter (fun j => g.getD j false)
  if mems.length = 0 then .error "argmax of an empty sequence"
  else .ok (g.set (mems.getD (orc k % mems.length) 0) false)

/-- `steps` criterion calls in one direction, threading the call counter. -/
def mmSteps (orc : ℕ → ℕ) (back : Bool) :
    ℕ → ℕ → BVec → Except String (BVec × ℕ)
  | 0, k, g => .ok (g, k)
  | n + 1, k, g =>
    match (if back then mmBackwardStep orc k g else mmForwardStep orc k g)
      with
    | .error e => .error e
    | .ok g' => mmSteps orc back n (k + 1) g'

/-- One pass of the inner loop:
`for steps, backtrack in zip([self.forward_iterations,
self.backward_iterations], [False, True])` — the executed counts are the
CONSTRUCTOR values, not the loop-local clamped `backward_it`. -/
def mmPass (orc : ℕ → ℕ) (fw bw k : ℕ) (g : BVec) :
    Except String (BVec × ℕ) :=
  match mmSteps orc false fw k g with
  | .error e => .error e
  | .ok gk => mmSteps orc true bw gk.2 gk.1

/-- The loop-local state of one group's construction: the proposed group, the
accounted `proposed_group_size`, the best objective so far (`obj_old`), the
clamped `backward_it`, the function-scoped `cur_group`/recorded-table pair
(`none` while unassigned), and the criterion-call counter. -/
structure MMCarry where
  g : BVec
  size_acc : ℕ
  obj_old : ℚ
  bwIt : ℕ
  cur : Option (BVec × List (List ℚ))
  k : ℕ

/-- The inner `while (proposed_group_size + forward_it - backward_it) <=
max_group_size` loop.  On acceptance (`obj_new > obj_old + 1e-6`) the
candidate group and its doubled outcome table are recorded, the accounted
size advances by `forward_it - backward_it` (the OLD clamped value), and
`backward_it` is re-clamped; on rejection the loop breaks, returning the
recorded `cur_group`.  The fuel argument only bounds the recursion; the
callers pass `max_group_size + 1`, which the invariant proofs show is never
exhausted when `backward < forward`. -/
def mmInner (orc : ℕ → ℕ) (objs : ℕ → ℚ) (fw bw mgs : ℕ)
    (sens spec : List ℚ) (particles : List BVec)
    (prevTable : List (List ℚ)) :
    ℕ → MMCarry → Except String (Option (BVec × List (List ℚ)) × ℕ)
  | 0, _ => .error "inner loop fuel exhausted"
  | fuel + 1, c =>
    if c.size_acc + fw ≤ mgs + c.bwIt then
      match mmPass orc fw bw c.k c.g with
      | .error e => .error e
      | .ok gk =>
      if c.obj_old + mmAcceptTol < objs (gk.2 - 1) then
        mmInner orc objs fw bw mgs sens spec particles prevTable fuel
          { g := gk.1
            size_acc := c.size_acc + (fw - c.bwIt)
            obj_old := objs (gk.2 - 1)
            bwIt := min (max c.bwIt ((c.size_acc + (fw - c.bwIt)) + fw - mgs))
              (fw - 1)
            cur := some (gk.1,
              upd_prob_groups_x_particle_x_states prevTable
                (positivesOf gk.1 particles)
                (select_from_sizes spec (gk.1.count true))
                (select_from_sizes spec (gk.1.count true) +
                  select_from_sizes sens (gk.1.count true) - 1))
            k := gk.2 }
      else
        .ok (c.cur, gk.2)
    else
      .ok (c.cur, c.k)

/-- The outer `while added_groups_counter < extra_tests_needed` loop,
structurally recursive on the remaining group count.  Each iteration rebuilds
a fresh proposed group, runs the inner loop, then commits `cur_group`
(raising `UnboundLocalError` if it was never assigned) and promotes its
recorded table to the baseline. -/
def mmOuter (orc : ℕ → ℕ) (objs : ℕ → ℚ) (fw bw mgs n : ℕ)
    (sens spec : List ℚ) (particles : List BVec) :
    ℕ → List BVec → List (List ℚ) → Option (BVec × List (List ℚ)) → ℕ →
      Except String (List BVec)
  | 0, chosen, _, _, _ => .ok chosen
  | r + 1, chosen, prevTable, cur, k =>
    match mmInner orc objs fw bw mgs sens spec particles prevTable (mgs + 1)
      { g := List.replicate n false, size_acc := 0, obj_old := -1, bwIt := bw,
        cur := cur, k := k } with
    | .error e => .error e
    | .ok ck =>
      match ck.1 with
      | none => .error "UnboundLocalError: cur_group"
      | some gt =>
          mmOuter orc objs fw bw mgs n sens spec particles r
            (chosen ++ [gt.1]) gt.2 (some gt) ck.2

/-- `MaxMutualInformation.get_groups`: collapse the particle population, then
greedily commit `extra_tests_needed` groups, starting from the all-ones
`[n_particles, 1]` outcome table. -/
def mmGetGroups (orc : ℕ → ℕ) (objs : ℕ → ℚ) (alpha : List ℚ)
    (fw bw : ℕ) (st : State) : Except String (List BVec) :=
  mmOuter orc objs fw bw st.max_group_size st.num_patients
    st.prior_sensitivity st.prior_specificity
    (collapse_particles alpha st.particle_weights st.particles).2
    st.extra_tests_needed []
    (List.replicate
      (collapse_particles alpha st.particle_weights st.particles).2.length
      [1])
    none 0

theorem count_set_true (g : List Bool) (j : ℕ) (hj : j < g.length)
    (hf : g.getD j false = false) :
    (g.set j true).count true = g.count true + 1 := by
  induction g generalizing j with
  | nil => simp at hj
  | cons b rest ih =>
    cases j with
    | zero =>
      have hb : b = false := hf
      subst hb
      simp [List.count_cons]
    | succ j =>
      have hj' : j < rest.length := by simpa using hj
      have hf' : rest.getD j false = false := hf
      show (b :: rest.set j true).count true = (b :: rest).count true + 1
      simp only [List.count_cons, ih j hj' hf']
      ring

theorem count_set_false (g : List Bool) (j : ℕ) (hj : j < g.length)
    (ht : g.getD j false = true) :
    (g.set j false).count true + 1 = g.count true := by
  induction g generalizing j with
  | nil => simp at hj
  | cons b rest ih =>
    cases j with
    | zero =>
      have hb : b = true := ht
      subst hb
      simp [List.count_cons]
    | succ j =>
      have hj' : j < rest.length := by simpa using hj
      have ht' : rest.getD j false = true := ht
      show (b :: rest.set j false).count true + 1 = (b :: rest).count true
      simp only [List.count_cons, ← ih j hj' ht']
      ring

theorem exists_false_of_count_lt (g : List Bool)
    (h : g.count true < g.length) :
    ∃ j, j < g.length ∧ g.getD j false = false := by
  induction g with
  | nil => simp at h
  | cons b rest ih =>
    cases b with
    | false => exact ⟨0, by simp, rfl⟩
    | true =>
      have h' : rest.count true < rest.length := by
        simp [List.count_cons] at h
        omega
      obtain ⟨j, hj, hf⟩ := ih h'
      exact ⟨j + 1, by simpa using hj, hf⟩

theorem exists_true_of_count_pos (g : List Bool) (h : 0 < g.count true) :
    ∃ j, j < g.length ∧ g.getD j false = true := by
  induction g with
  | nil => simp at h
  | cons b rest ih =>
    cases b with
    | true => exact ⟨0, by simp, rfl⟩
    | false =>
      have h' : 0 < rest.count true := by
        simpa [List.count_cons] using h
      obtain ⟨j, hj, ht⟩ := ih h'
      exact ⟨j + 1, by simpa using hj, ht⟩

theorem getD_mem_of_lt (l : List α) (i : ℕ) (d : α) (h : i < l.length) :
    l.getD i d ∈ l := by
  rw [List.getD_eq_getElem?_getD, List.getElem?_eq_getElem h]
  simpa using List.getElem_mem h

theorem mmForwardStep_ok (orc : ℕ → ℕ) (k : ℕ) (g : BVec)
    (h : g.count true < g.length) :
    ∃ j, j < g.length ∧ g.getD j false = false ∧
      mmForwardStep orc k g = .ok (g.set j true) := by
  obtain ⟨j0, hj0, hf0⟩ := exists_false_of_count_lt g h
  have hmem : j0 ∈ (List.range g.length).filter
      (fun j => !(g.getD j false)) := by
    apply List.mem_filter.mpr
    refine ⟨List.mem_range.mpr hj0, ?_⟩
    simpa [List.getD] using hf0
  have hne : ((List.range g.length).filter
      (fun j => !(g.getD j false))).length ≠ 0 := by
    intro hnil
    rw [List.length_eq_zero.mp hnil] at hmem
    simp at hmem
  have hlt : orc k % ((List.range g.length).filter
      (fun j => !(g.getD j false))).length < ((List.range g.length).filter
      (fun j => !(g.getD j false))).length := Nat.mod_lt _ (by omega)
  have hjmem := getD_mem_of_lt _ _ 0 hlt
  have hjp := List.mem_filter.mp hjmem
  refine ⟨_, List.mem_range.mp hjp.1, ?_, ?_⟩
  · have := hjp.2
    simp only [Bool.not_eq_true'] at this
    simpa [List.getD] using this
  · unfold mmForwardStep
    rw [if_neg hne]

theorem mmBackwardStep_ok (orc : ℕ → ℕ) (k : ℕ) (g : BVec)
    (h : 0 < g.count true) :
    ∃ j, j < g.length ∧ g.getD j false = true ∧
      mmBackwardStep orc k g = .ok (g.set j false) := by
  obtain ⟨j0, hj0, ht0⟩ := exists_true_of_count_pos g h
  have hmem : j0 ∈ (List.range g.length).filter
      (fun j => g.getD j false) := by
    apply List.mem_filter.mpr
    refine ⟨List.mem_range.mpr hj0, ?_⟩
    simpa [List.getD] using ht0
  have hne : ((List.range g.length).filter
      (fun j => g.getD j false)).length ≠ 0 := by
    intro hnil
    rw [List.length_eq_zero.mp hnil] at hmem
    simp at hmem
  have hlt : orc k % ((List.range g.length).filter
      (fun j => g.getD j false)).length < ((List.range g.length).filter
      (fun j => g.getD j false)).length := Nat.mod_lt _ (by omega)
  have hjmem := getD_mem_of_lt _ _ 0 hlt
  have hjp := List.mem_filter.mp hjmem
  refine ⟨_, List.mem_range.mp hjp.1, ?_, ?_⟩
  · have := hjp.2
    simpa [List.getD] using this
  · unfold mmBackwardStep
    rw [if_neg hne]

theorem mmSteps_succ (orc : ℕ → ℕ) (back : Bool) (n k : ℕ) (g : BVec) :
    mmSteps orc back (n + 1) k g =
      match (if back = true then mmBackwardStep orc k g
        else mmForwardStep orc k g) with
      | Except.error e => Except.error e
      | Except.ok g' => mmSteps orc back n (k + 1) g' := rfl

theorem mmSteps_forward_spec (orc : ℕ → ℕ) :
    ∀ (n k : ℕ) (g : BVec), g.count true + n ≤ g.length →
      ∃ g', mmSteps orc false n k g = .ok (g', k + n) ∧
        g'.length = g.length ∧ g'.count true = g.count true + n := by
  intro n
  induction n with
  | zero =>
    intro k g _
    exact ⟨g, rfl, rfl, rfl⟩
  | succ n ih =>
    intro k g h
    obtain ⟨j, hj, hf, hstep⟩ := mmForwardStep_ok orc k g (by omega)
    obtain ⟨g', hrun, hlen, hcount⟩ := ih (k + 1) (g.set j true)
      (by rw [List.length_set, count_set_true g j hj hf]; omega)
    refine ⟨g', ?_, by rw [hlen, List.length_set], ?_⟩
    · rw [mmSteps_succ, if_neg (by simp), hstep]
      dsimp only
      rw [hrun]
      have : k + 1 + n = k + (n + 1) := by omega
      rw [this]
    · rw [hcount, count_set_true g j hj hf]
      omega

theorem mmSteps_backward_spec (orc : ℕ → ℕ) :
    ∀ (n k : ℕ) (g : BVec), n ≤ g.count true →
      ∃ g', mmSteps orc true n k g = .ok (g', k + n) ∧
        g'.length = g.length ∧ g'.count true + n = g.count true := by
  intro n
  induction n with
  | zero =>
    intro k g _
    exact ⟨g, rfl, rfl, rfl⟩
  | succ n ih =>
    intro k g h
    obtain ⟨j, hj, ht, hstep⟩ := mmBackwardStep_ok orc k g (by omega)
    have hcnt := count_set_false g j hj ht
    obtain ⟨g', hrun, hlen, hcount⟩ := ih (k + 1) (g.set j false) (by omega)
    refine ⟨g', ?_, by rw [hlen, List.length_set], by omega⟩
    rw [mmSteps_succ, if_pos rfl, hstep]
    dsimp only
    rw [hrun]
    have : k + 1 + n = k + (n + 1) := by omega
    rw [this]

theorem mmPass_spec (orc : ℕ → ℕ) (fw bw k : ℕ) (g : BVec)
    (hfw : g.count true + fw ≤ g.length) (hbw : bw ≤ g.count true + fw) :
    ∃ g', mmPass orc fw bw k g = .ok (g', k + fw + bw) ∧
      g'.length = g.length ∧
      g'.count true + bw = g.count true + fw := by
  obtain ⟨g1, hrun1, hlen1, hcount1⟩ := mmSteps_forward_spec orc fw k g hfw
  obtain ⟨g2, hrun2, hlen2, hcount2⟩ := mmSteps_backward_spec orc bw
    (k + fw) g1 (by omega)
  refine ⟨g2, ?_, by rw [hlen2, hlen1], by omega⟩
  unfold mmPass
  rw [hrun1]
  exact hrun2

theorem mmForwardStep_error (orc : ℕ → ℕ) (k : ℕ) (g : BVec) (e : String)
    (h : mmForwardStep orc k g = .error e) :
    e = "argmax of an empty sequence" := by
  unfold mmForwardStep at h
  by_cases hc : ((List.range g.length).filter
      (fun j => !(g.getD j false))).length = 0
  · rw [if_pos hc] at h
    exact (Except.error.inj h).symm
  · rw [if_neg hc] at h
    exact absurd h (by simp)

theorem mmBackwardStep_error (orc : ℕ → ℕ) (k : ℕ) (g : BVec) (e : String)
    (h : mmBackwardStep orc k g = .error e) :
    e = "argmax of an empty sequence" := by
  unfold mmBackwardStep at h
  by_cases hc : ((List.range g.length).filter
      (fun j => g.getD j false)).length = 0
  · rw [if_pos hc] at h
    exact (Except.error.inj h).symm
  · rw [if_neg hc] at h
    exact absurd h (by simp)

theorem mmSteps_error (orc : ℕ → ℕ) (back : Bool) :
    ∀ (n k : ℕ) (g : BVec) (e : String),
      mmSteps orc back n k g = .error e →
      e = "argmax of an empty sequence" := by
  intro n
  induction n with
  | zero =>
    intro k g e h
    exact absurd h (by simp [mmSteps])
  | succ n ih =>
    intro k g e h
    unfold mmSteps at h
    cases hstep : (if back = true then mmBackwardStep orc k g
        else mmForwardStep orc k g) with
    | error e' =>
      rw [hstep] at h
      have he : e' = e := Except.error.inj h
      subst he
      cases back with
      | true =>
        rw [if_pos rfl] at hstep
        exact mmBackwardStep_error orc k g e' hstep
      | false =>
        rw [if_neg (by simp)] at hstep
        exact mmForwardStep_error orc k g e' hstep
    | ok g' =>
      rw [hstep] at h
      exact ih (k + 1) g' e h

theorem mmPass_error (orc : ℕ → ℕ) (fw bw k : ℕ) (g : BVec) (e : String)
    (h : mmPass orc fw bw k g = .error e) :
    e = "argmax of an empty sequence" := by
  unfold mmPass at h
  cases hstep : mmSteps orc false fw k g with
  | error e' =>
    rw [hstep] at h
    have he : e' = e := Except.error.inj h
    subst he
    exact mmSteps_error orc false fw k g e' hstep
  | ok gk =>
    rw [hstep] at h
    exact mmSteps_error orc true bw gk.2 gk.1 e h

theorem mmInner_error (orc : ℕ → ℕ) (objs : ℕ → ℚ) (fw bw mgs : ℕ)
    (sens spec : List ℚ) (particles : List BVec)
    (prevTable : List (List ℚ)) :
    ∀ (fuel : ℕ) (c : MMCarry) (e : String),
      mmInner orc objs fw bw mgs sens spec particles prevTable fuel c =
        .error e →
      e = "argmax of an empty sequence" ∨ e = "inner loop fuel exhausted" := by
  intro fuel
  induction fuel with
  | zero =>
    intro c e h
    right
    exact (Except.error.inj h).symm
  | succ fuel ih =>
    intro c e h
    unfold mmInner at h
    by_cases hcond : c.size_acc + fw ≤ mgs + c.bwIt
    swap
    · rw [if_neg hcond] at h
      exact absurd h (by simp)
    rw [if_pos hcond] at h
    cases hpass : mmPass orc fw bw c.k c.g with
    | error e' =>
      rw [hpass] at h
      dsimp only at h
      have he : e' = e := Except.error.inj h
      subst he
      exact Or.inl (mmPass_error orc fw bw c.k c.g e' hpass)
    | ok gk =>
      rw [hpass] at h
      dsimp only at h
      by_cases hacc : c.obj_old + mmAcceptTol < objs (gk.2 - 1)
      · rw [if_pos hacc] at h
        exact ih _ e h
      · rw [if_neg hacc] at h
        exact absurd h (by simp)

theorem mmInner_ok_cur (orc : ℕ → ℕ) (objs : ℕ → ℚ) (fw bw mgs : ℕ)
    (sens spec : List ℚ) (particles : List BVec)
    (prevTable : List (List ℚ)) :
    ∀ (fuel : ℕ) (c : MMCarry) (res : Option (BVec × List (List ℚ)) × ℕ),
      c.cur.isSome = true →
      mmInner orc objs fw bw mgs sens spec particles prevTable fuel c =
        .ok res →
      res.1.isSome = true := by
  intro fuel
  induction fuel with
  | zero =>
    intro c res hcur h
    exact absurd h (by simp [mmInner])
  | succ fuel ih =>
    intro c res hcur h
    unfold mmInner at h
    by_cases hcond : c.size_acc + fw ≤ mgs + c.bwIt
    swap
    · rw [if_neg hcond] at h
      have := Except.ok.inj h
      rw [← this]
      exact hcur
    rw [if_pos hcond] at h
    cases hpass : mmPass orc fw bw c.k c.g with
    | error e' =>
      rw [hpass] at h
      dsimp only at h
      exact absurd h (by simp)
    | ok gk =>
      rw [hpass] at h
      dsimp only at h
      by_cases hacc : c.obj_old + mmAcceptTol < objs (gk.2 - 1)
      · rw [if_pos hacc] at h
        exact ih _ res (by simp) h
      · rw [if_neg hacc] at h
        have := Except.ok.inj h
        rw [← this]
        exact hcur

theorem mmSteps_ok_k (orc : ℕ → ℕ) (back : Bool) :
    ∀ (n k : ℕ) (g : BVec) (gk : BVec × ℕ),
      mmSteps orc back n k g = .ok gk → gk.2 = k + n := by
  intro n
  induction n with
  | zero =>
    intro k g gk h
    have := Except.ok.inj h
    rw [← this]
    simp
  | succ n ih =>
    intro k g gk h
    rw [mmSteps_succ] at h
    cases hstep : (if back = true then mmBackwardStep orc k g
        else mmForwardStep orc k g) with
    | error e =>
      rw [hstep] at h
      exact absurd h (by simp)
    | ok g' =>
      rw [hstep] at h
      have := ih (k + 1) g' gk h
      omega

theorem mmPass_ok_k (orc : ℕ → ℕ) (fw bw k : ℕ) (g : BVec) (gk : BVec × ℕ)
    (h : mmPass orc fw bw k g = .ok gk) : gk.2 = k + fw + bw := by
  unfold mmPass at h
  cases hstep : mmSteps orc false fw k g with
  | error e =>
    rw [hstep] at h
    exact absurd h (by simp)
  | ok gk1 =>
    rw [hstep] at h
    have h1 := mmSteps_ok_k orc false fw k g gk1 hstep
    have h2 := mmSteps_ok_k orc true bw gk1.2 gk1.1 gk h
    omega

theorem mmInner_succ (orc : ℕ → ℕ) (objs : ℕ → ℚ) (fw bw mgs : ℕ)
    (sens spec : List ℚ) (particles : List BVec)
    (prevTable : List (List ℚ)) (fuel : ℕ) (c : MMCarry) :
    mmInner orc objs fw bw mgs sens spec particles prevTable (fuel + 1) c =
      (if c.size_acc + fw ≤ mgs + c.bwIt then
        match mmPass orc fw bw c.k c.g with
        | Except.error e => Except.error e
        | Except.ok gk =>
          if c.obj_old + mmAcceptTol < objs (gk.2 - 1) then
            mmInner orc objs fw bw mgs sens spec particles prevTable fuel
              { g := gk.1
                size_acc := c.size_acc + (fw - c.bwIt)
                obj_old := objs (gk.2 - 1)
                bwIt := min (max c.bwIt
                  ((c.size_acc + (fw - c.bwIt)) + fw - mgs)) (fw - 1)
                cur := some (gk.1,
                  upd_prob_groups_x_particle_x_states prevTable
                    (positivesOf gk.1 particles)
                    (select_from_sizes spec (gk.1.count true))
                    (select_from_sizes spec (gk.1.count true) +
                      select_from_sizes sens (gk.1.count true) - 1))
                k := gk.2 }
          else
            .ok (c.cur, gk.2)
      else
        .ok (c.cur, c.k)) := rfl

theorem mmOuter_succ (orc : ℕ → ℕ) (objs : ℕ → ℚ) (fw bw mgs n : ℕ)
    (sens spec : List ℚ) (particles : List BVec) (r : ℕ)
    (chosen : List BVec) (prevTable : List (List ℚ))
    (cur : Option (BVec × List (List ℚ))) (k : ℕ) :
    mmOuter orc objs fw bw mgs n sens spec particles (r + 1) chosen prevTable
        cur k =
      (match mmInner orc objs fw bw mgs sens spec particles prevTable
          (mgs + 1)
          { g := List.replicate n false, size_acc := 0, obj_old := -1,
            bwIt := bw, cur := cur, k := k } with
      | Except.error e => Except.error e
      | Except.ok ck =>
        match ck.1 with
        | none => Except.error "UnboundLocalError: cur_group"
        | some gt =>
            mmOuter orc objs fw bw mgs n sens spec particles r
              (chosen ++ [gt.1]) gt.2 (some gt) ck.2) := rfl

theorem mmInner_inv (orc : ℕ → ℕ) (objs : ℕ → ℚ) (fw bw mgs n : ℕ)
    (sens spec : List ℚ) (particles : List BVec)
    (prevTable : List (List ℚ)) (hbw : bw < fw) (hdelta : fw - bw ≤ mgs)
    (hn : (mgs - 1) * (fw - bw) + fw ≤ n) :
    ∀ (fuel : ℕ) (c : MMCarry) (j : ℕ),
      c.g.length = n → c.g.count true = j * (fw - bw) →
      j ≤ c.size_acc → c.size_acc ≤ mgs → bw ≤ c.bwIt → c.bwIt < fw →
      mgs + 1 ≤ fuel + c.size_acc →
      ∃ cur' k',
        mmInner orc objs fw bw mgs sens spec particles prevTable fuel c =
          .ok (cur', k') ∧
        (cur' = c.cur ∨ ∃ g' t', cur' = some (g', t') ∧
          g'.count true ≤ mgs * (fw - bw)) := by
  intro fuel
  induction fuel with
  | zero =>
    intro c j h1 h2 h3 h4 h5 h6 h7
    omega
  | succ fuel ih =>
    intro c j h1 h2 h3 h4 h5 h6 h7
    rw [mmInner_succ]
    by_cases hcond : c.size_acc + fw ≤ mgs + c.bwIt
    swap
    · rw [if_neg hcond]
      exact ⟨c.cur, c.k, rfl, Or.inl rfl⟩
    rw [if_pos hcond]
    have hj_le : j ≤ mgs - 1 := by omega
    have hmul := Nat.mul_le_mul_right (fw - bw) hj_le
    have hcount_fw : c.g.count true + fw ≤ c.g.length := by
      rw [h1, h2]
      omega
    obtain ⟨g', hpass, hglen, hgcount⟩ := mmPass_spec orc fw bw c.k c.g
      hcount_fw (by omega)
    rw [hpass]
    dsimp only
    by_cases hacc : c.obj_old + mmAcceptTol < objs (c.k + fw + bw - 1)
    · rw [if_pos hacc]
      have hexp : (j + 1) * (fw - bw) = j * (fw - bw) + (fw - bw) := by ring
      have hnewcount : g'.count true = (j + 1) * (fw - bw) := by omega
      obtain ⟨cur', k', hrun, hcur⟩ := ih
        { g := g'
          size_acc := c.size_acc + (fw - c.bwIt)
          obj_old := objs (c.k + fw + bw - 1)
          bwIt := min (max c.bwIt
            ((c.size_acc + (fw - c.bwIt)) + fw - mgs)) (fw - 1)
          cur := some (g',
            upd_prob_groups_x_particle_x_states prevTable
              (positivesOf g' particles)
              (select_from_sizes spec (g'.count true))
              (select_from_sizes spec (g'.count true) +
                select_from_sizes sens (g'.count true) - 1))
          k := c.k + fw + bw } (j + 1)
        (by simpa using hglen.trans h1) hnewcount
        (by simp; omega) (by simp; omega) (by simp; omega) (by simp; omega)
        (by simp; omega)
      refine ⟨cur', k', hrun, ?_⟩
      rcases hcur with hcur | hcur
      · right
        refine ⟨g', _, hcur, ?_⟩
        rw [hnewcount]
        exact Nat.mul_le_mul_right (fw - bw) (by omega)
      · exact Or.inr hcur
    · rw [if_neg hacc]
      exact ⟨c.cur, c.k + fw + bw, rfl, Or.inl rfl⟩

theorem count_true_replicate_false (n : ℕ) :
    (List.replicate n false).count true = 0 := by
  induction n with
  | zero => rfl
  | succ n ih => simp [List.replicate_succ, List.count_cons, ih]

theorem mmInner_first (orc : ℕ → ℕ) (objs : ℕ → ℚ) (fw bw mgs n : ℕ)
    (sens spec : List ℚ) (particles : List BVec)
    (prevTable : List (List ℚ)) (hbw : bw < fw) (hdelta : fw - bw ≤ mgs)
    (hn : (mgs - 1) * (fw - bw) + fw ≤ n)
    (c0 : Option (BVec × List (List ℚ))) (k : ℕ)
    (hobj : (-1 : ℚ) + mmAcceptTol < objs (k + fw + bw - 1)) :
    ∃ cur' k',
      mmInner orc objs fw bw mgs sens spec particles prevTable (mgs + 1)
        { g := List.replicate n false, size_acc := 0, obj_old := -1,
          bwIt := bw, cur := c0, k := k } = .ok (cur', k') ∧
      ∃ g' t', cur' = some (g', t') ∧
        g'.count true ≤ mgs * (fw - bw) := by
  have hfwn : fw ≤ n := le_trans (Nat.le_add_left fw _) hn
  rw [mmInner_succ]
  rw [if_pos (by simp; omega)]
  have hcnt0 : (List.replicate n false).count true = 0 :=
    count_true_replicate_false n
  obtain ⟨g1, hpass, hglen, hgcount⟩ := mmPass_spec orc fw bw k
    (List.replicate n false)
    (by rw [hcnt0, List.length_replicate]; omega) (by omega)
  dsimp only
  rw [hpass]
  dsimp only
  rw [if_pos (by simpa using hobj)]
  have hg1len : g1.length = n := by
    rw [hglen, List.length_replicate]
  have hg1count : g1.count true = 1 * (fw - bw) := by
    rw [hcnt0] at hgcount
    omega
  obtain ⟨cur', k', hrun, hcur⟩ := mmInner_inv orc objs fw bw mgs n sens spec
    particles prevTable hbw hdelta hn mgs
    { g := g1
      size_acc := 0 + (fw - bw)
      obj_old := objs (k + fw + bw - 1)
      bwIt := min (max bw ((0 + (fw - bw)) + fw - mgs)) (fw - 1)
      cur := some (g1,
        upd_prob_groups_x_particle_x_states prevTable
          (positivesOf g1 particles)
          (select_from_sizes spec (g1.count true))
          (select_from_sizes spec (g1.count true) +
            select_from_sizes sens (g1.count true) - 1))
      k := k + fw + bw } 1
    hg1len hg1count (by simp; omega) (by simp; omega) (by simp; omega)
    (by simp; omega) (by simp; omega)
  refine ⟨cur', k', hrun, ?_⟩
  rcases hcur with hcur | hcur
  · refine ⟨g1, _, hcur, ?_⟩
    rw [hg1count, one_mul]
    have hmgs1 : 1 ≤ mgs := by omega
    calc fw - bw = 1 * (fw - bw) := by ring
      _ ≤ mgs * (fw - bw) := Nat.mul_le_mul_right _ hmgs1
  · exact hcur

theorem mmOuter_ok (orc : ℕ → ℕ) (objs : ℕ → ℚ) (fw bw mgs n : ℕ)
    (sens spec : List ℚ) (particles : List BVec) (hbw : bw < fw)
    (hdelta : fw - bw ≤ mgs) (hn : (mgs - 1) * (fw - bw) + fw ≤ n) :
    ∀ (r : ℕ) (chosen : List BVec) (prevTable : List (List ℚ)) (gc : BVec)
      (tc : List (List ℚ)) (k : ℕ),
      gc.count true ≤ mgs * (fw - bw) →
      ∃ gs, mmOuter orc objs fw bw mgs n sens spec particles r chosen
          prevTable (some (gc, tc)) k = .ok (chosen ++ gs) ∧
        gs.length = r ∧ ∀ g ∈ gs, g.count true ≤ mgs * (fw - bw) := by
  intro r
  induction r with
  | zero =>
    intro chosen prevTable gc tc k _
    exact ⟨[], by simp [mmOuter], rfl, by simp⟩
  | succ r ih =>
    intro chosen prevTable gc tc k hgc
    obtain ⟨cur', k', hrun, hcur⟩ := mmInner_inv orc objs fw bw mgs n sens
      spec particles prevTable hbw hdelta hn (mgs + 1)
      { g := List.replicate n false, size_acc := 0, obj_old := -1,
        bwIt := bw, cur := some (gc, tc), k := k } 0
      (List.length_replicate n false)
      (by simpa using count_true_replicate_false n) (by simp)
      (by simp) (by simp) (by simpa using hbw) (by simp)
    have hsome : ∃ g' t', cur' = some (g', t') ∧
        g'.count true ≤ mgs * (fw - bw) := by
      rcases hcur with hcur | hcur
      · exact ⟨gc, tc, hcur, hgc⟩
      · exact hcur
    obtain ⟨g', t', hcur', hbound⟩ := hsome
    rw [mmOuter_succ, hrun]
    dsimp only
    rw [hcur']
    dsimp only
    obtain ⟨gs', hrun', hlen', hball'⟩ := ih (chosen ++ [g']) t' g' t' k'
      hbound
    refine ⟨g' :: gs', ?_, by simp [hlen'], ?_⟩
    · rw [hrun']
      congr 1
      simp
    · intro g hg
      rcases List.mem_cons.mp hg with hg | hg
      · rw [hg]
        exact hbound
      · exact hball' g hg

theorem mmOuter_not_unbound (orc : ℕ → ℕ) (objs : ℕ → ℚ) (fw bw mgs n : ℕ)
    (sens spec : List ℚ) (particles : List BVec) :
    ∀ (r : ℕ) (chosen : List BVec) (prevTable : List (List ℚ)) (gc : BVec)
      (tc : List (List ℚ)) (k : ℕ),
      mmOuter orc objs fw bw mgs n sens spec particles r chosen prevTable
        (some (gc, tc)) k ≠ .error "UnboundLocalError: cur_group" := by
  intro r
  induction r with
  | zero =>
    intro chosen prevTable gc tc k h
    exact absurd h (by simp [mmOuter])
  | succ r ih =>
    intro chosen prevTable gc tc k h
    rw [mmOuter_succ] at h
    cases hrun : mmInner orc objs fw bw mgs sens spec particles prevTable
        (mgs + 1)
        { g := List.replicate n false, size_acc := 0, obj_old := -1,
          bwIt := bw, cur := some (gc, tc), k := k } with
    | error e =>
      rw [hrun] at h
      dsimp only at h
      have he : e = "UnboundLocalError: cur_group" := Except.error.inj h
      rcases mmInner_error orc objs fw bw mgs sens spec particles prevTable
          _ _ _ hrun with h1 | h1 <;> rw [h1] at he <;>
        exact absurd he (by decide)
    | ok ck =>
      rw [hrun] at h
      dsimp only at h
      have hsome := mmInner_ok_cur orc objs fw bw mgs sens spec particles
        prevTable _ _ ck (by simp) hrun
      cases hck : ck.1 with
      | none =>
        rw [hck] at hsome
        simp at hsome
      | some gt =>
        rcases gt with ⟨gg, tt⟩
        rw [hck] at h
        dsimp only at h
        exact ih (chosen ++ [gg]) tt gg tt ck.2 h

theorem mmInner_fresh_some (orc : ℕ → ℕ) (objs : ℕ → ℚ) (fw bw mgs n : ℕ)
    (sens spec : List ℚ) (particles : List BVec)
    (prevTable : List (List ℚ)) (k : ℕ)
    (hbw : bw < fw) (hle : fw - bw ≤ mgs)
    (hobj : (-1 : ℚ) + mmAcceptTol < objs (k + fw + bw - 1)) :
    ∀ res,
      mmInner orc objs fw bw mgs sens spec particles prevTable (mgs + 1)
        { g := List.replicate n false, size_acc := 0, obj_old := -1,
          bwIt := bw, cur := none, k := k } = .ok res →
      res.1.isSome = true := by
  intro res h
  rw [mmInner_succ] at h
  rw [if_pos (by simp; omega)] at h
  dsimp only at h
  cases hpass : mmPass orc fw bw k (List.replicate n false) with
  | error e =>
    rw [hpass] at h
    dsimp only at h
    exact absurd h (by simp)
  | ok gk =>
    rw [hpass] at h
    dsimp only at h
    have hk := mmPass_ok_k orc fw bw k (List.replicate n false) gk hpass
    rw [if_pos (by rw [hk]; simpa using hobj)] at h
    exact mmInner_ok_cur orc objs fw bw mgs sens spec particles prevTable
      _ _ res (by simp) h

/-- Concrete state for the C3 counterexample: two patients,
`max_group_size = 1`, one extra test needed. -/
def c3CexState : State :=
  { c1State with
    num_patients := 2
    max_group_size := 1
    extra_tests_needed := 1
    particles := [[false, false]]
    particle_weights := [1] }

/-- C3 (counterexample): with `forward_iterations = 2`,
`backward_iterations = 0` and `max_group_size = 1`, `get_groups` reads the
never-assigned `cur_group` instead of returning a batch, for any oracle
values (none are consulted: the inner loop's entry condition is already
false). -/
theorem c3_counterexample :
    mmGetGroups (fun _ => 0) (fun _ => 0) [] 2 0 c3CexState =
      .error "UnboundLocalError: cur_group" := rfl

/-- C3 (amended): whenever `backward_iterations < forward_iterations` (the
constructor's guarantee), the net growth `forward − backward` does not exceed
`max_group_size`, the population is large enough to supply every forward step
(`(max_group_size − 1)·(fw − bw) + fw ≤ num_patients`), and the first
acceptance check passes (true of the real entropy objectives, which exceed
`−log 2 > −1 + 1e-6`), `get_groups` returns a batch of exactly
`extra_tests_needed` committed groups; each committed group has at most
`max_group_size · (forward_iterations − backward_iterations)` patients — the
clamping of `backward_it` does NOT bound sizes by `max_group_size` itself,
because the executed backward steps use the unclamped constructor value. -/
theorem c3_mm_get_groups_counts (orc : ℕ → ℕ) (objs : ℕ → ℚ)
    (alpha : List ℚ) (fw bw : ℕ) (st : State)
    (hbw : bw < fw) (hdelta : fw - bw ≤ st.max_group_size)
    (hn : (st.max_group_size - 1) * (fw - bw) + fw ≤ st.num_patients)
    (hobj : (-1 : ℚ) + mmAcceptTol < objs (fw + bw - 1)) :
    (mmGetGroups orc objs alpha fw bw st).toOption.map List.length =
        some st.extra_tests_needed ∧
      ∀ g ∈ (mmGetGroups orc objs alpha fw bw st).toOption.getD [],
        g.count true ≤ st.max_group_size * (fw - bw) := by
  unfold mmGetGroups
  cases hex : st.extra_tests_needed with
  | zero =>
    constructor
    · simp [mmOuter, Except.toOption]
    · intro g hg
      simp [mmOuter, Except.toOption] at hg
  | succ r =>
    obtain ⟨cur', k', hrun, g', t', hcur', hbound⟩ := mmInner_first orc objs
      fw bw st.max_group_size st.num_patients st.prior_sensitivity
      st.prior_specificity
      (collapse_particles alpha st.particle_weights st.particles).2
      (List.replicate
        (collapse_particles alpha st.particle_weights st.particles).2.length
        [1])
      hbw hdelta hn none 0 (by simpa using hobj)
    rw [mmOuter_succ, hrun]
    dsimp only
    rw [hcur']
    dsimp only
    obtain ⟨gs, hrun', hlen, hball⟩ := mmOuter_ok orc objs fw bw
      st.max_group_size st.num_patients st.prior_sensitivity
      st.prior_specificity
      (collapse_particles alpha st.particle_weights st.particles).2
      hbw hdelta hn r ([] ++ [g']) t' g' t' k' hbound
    rw [hrun']
    constructor
    · simp [Except.toOption]
      omega
    · intro g hg
      simp only [Except.toOption, Option.getD] at hg
      rcases List.mem_append.mp hg with hg | hg
      · simp at hg
        rw [hg]
        exact hbound
      · exact hball g hg

/-- Concrete state for the C3 witness: one patient, `max_group_size = 1`,
one extra test, a single particle. -/
def c3WitState : State :=
  { c1State with
    num_patients := 1
    max_group_size := 1
    extra_tests_needed := 1
    particles := [[true]]
    particle_weights := [1] }

/-- C3 (witness): the amended count statement at a concrete state and
oracles (`forward_iterations = 1`, `backward_iterations = 0`, objective
constantly `1`). -/
theorem c3_witness :
    (mmGetGroups (fun _ => 0) (fun _ => 1) [] 1 0 c3WitState).toOption.map
      List.length = some 1 :=
  (c3_mm_get_groups_counts (fun _ => 0) (fun _ => 1) [] 1 0 c3WitState
    (by decide) (by decide) (by decide)
    (by unfold mmAcceptTol; norm_num)).1

/-- C10: with `backward_iterations < forward_iterations` and at least one
test needed, `get_groups` reads an unassigned variable exactly outside the
precondition `forward_iterations − backward_iterations ≤ max_group_size`:
when the precondition fails, the inner loop's entry condition is false
before any sub-step runs and the commit reads the never-assigned
`cur_group`; when it holds (and the first acceptance check passes, as the
real entropy objectives guarantee), the first pass assigns `cur_group` and
no unassigned-variable read can occur. -/
theorem c10_mm_unbound_cur_group (orc : ℕ → ℕ) (objs : ℕ → ℚ)
    (alpha : List ℚ) (fw bw : ℕ) (st : State)
    (hbw : bw < fw) (hex : 1 ≤ st.extra_tests_needed) :
    (st.max_group_size < fw - bw →
      mmGetGroups orc objs alpha fw bw st =
        .error "UnboundLocalError: cur_group") ∧
    (fw - bw ≤ st.max_group_size →
      (-1 : ℚ) + mmAcceptTol < objs (fw + bw - 1) →
      mmGetGroups orc objs alpha fw bw st ≠
        .error "UnboundLocalError: cur_group") := by
  constructor
  · intro hlt
    unfold mmGetGroups
    obtain ⟨r, hr⟩ : ∃ r, st.extra_tests_needed = r + 1 :=
      ⟨st.extra_tests_needed - 1, by omega⟩
    rw [hr, mmOuter_succ]
    have hinner : mmInner orc objs fw bw st.max_group_size
        st.prior_sensitivity st.prior_specificity
        (collapse_particles alpha st.particle_weights st.particles).2
        (List.replicate
          (collapse_particles alpha st.particle_weights st.particles).2.length
          [1])
        (st.max_group_size + 1)
        { g := List.replicate st.num_patients false, size_acc := 0,
          obj_old := -1, bwIt := bw, cur := none, k := 0 } =
        .ok (none, 0) := by
      rw [mmInner_succ]
      rw [if_neg (by simp; omega)]
    rw [hinner]
  · intro hle hobj h
    unfold mmGetGroups at h
    cases hex2 : st.extra_tests_needed with
    | zero =>
      rw [hex2] at h
      exact absurd h (by simp [mmOuter])
    | succ r =>
      rw [hex2, mmOuter_succ] at h
      cases hrun : mmInner orc objs fw bw st.max_group_size
          st.prior_sensitivity st.prior_specificity
          (collapse_particles alpha st.particle_weights st.particles).2
          (List.replicate
            (collapse_particles alpha
              st.particle_weights st.particles).2.length [1])
          (st.max_group_size + 1)
          { g := List.replicate st.num_patients false, size_acc := 0,
            obj_old := -1, bwIt := bw, cur := none, k := 0 } with
      | error e =>
        rw [hrun] at h
        dsimp only at h
        have he : e = "UnboundLocalError: cur_group" := Except.error.inj h
        rcases mmInner_error orc objs fw bw st.max_group_size
            st.prior_sensitivity st.prior_specificity _ _ _ _ _ hrun with
          h1 | h1 <;> rw [h1] at he <;> exact absurd he (by decide)
      | ok ck =>
        rw [hrun] at h
        dsimp only at h
        have hsome := mmInner_fresh_some orc objs fw bw st.max_group_size
          st.num_patients st.prior_sensitivity st.prior_specificity
          (collapse_particles alpha st.particle_weights st.particles).2
          (List.replicate
            (collapse_particles alpha
              st.particle_weights st.particles).2.length [1])
          0 hbw hle (by simpa using hobj) ck hrun
        cases hck : ck.1 with
        | none =>
          rw [hck] at hsome
          simp at hsome
        | some gt =>
          rcases gt with ⟨gg, tt⟩
          rw [hck] at h
          dsimp only at h
          exact mmOuter_not_unbound orc objs fw bw st.max_group_size
            st.num_patients st.prior_sensitivity st.prior_specificity
            _ r ([] ++ [gg]) tt gg tt ck.2 h

/-- Concrete state for the C10 witness: `max_group_size = 1` with
`forward_iterations = 2`, `backward_iterations = 0`. -/
def c10WitState : State :=
  { c1State with
    num_patients := 2
    max_group_size := 1
    extra_tests_needed := 1
    particles := [[false, false]]
    particle_weights := [1] }

/-- C10 (witness): the unassigned-variable read at a concrete state where
`max_group_size < forward_iterations − backward_iterations`. -/
theorem c10_witness :
    mmGetGroups (fun _ => 0) (fun _ => 0) [] 2 0 c10WitState =
      .error "UnboundLocalError: cur_group" :=
  (c10_mm_unbound_cur_group (fun _ => 0) (fun _ => 0) [] 2 0 c10WitState
    (by decide) (by decide)).1 (by decide)

end GroupTesting
